import Mathlib

/-!
Verification development for the `ignore` gitignore-template aggregator.

The Rust sources under `src/` are shallowly embedded here:

* strings are modelled as `List Char` (type `Str`), faithful to byte-wise
  behaviour of ASCII content (Rust `String` ordering is byte-lexicographic,
  which agrees with code-point order on ASCII);
* `std::time::SystemTime` instants are modelled as natural numbers of
  seconds; `SystemTime::duration_since` fails exactly when the argument is
  later than the receiver;
* fallible operations return `Except`; the filesystem seen by the template
  consolidator is a partial map from paths to file bodies, with `none`
  standing for a file that fails to open;
* the `BTreeMap<String, Vec<String>>` template index is modelled as an
  association list whose keys are kept in strictly increasing
  byte-lexicographic order by the insertion operations, exactly the
  iteration order a `BTreeMap` presents; file paths are modelled as the
  list of path components from the walk root;
* the git side effects of `update_gitignore_repos` are modelled by a
  per-repository record of outcomes (`RepoWorld`) for each libgit2 call
  the code makes, and the loop is folded over those records.

Definitions come first, theorems afterwards.
-/

set_option maxRecDepth 10000

deriving instance DecidableEq for Except

namespace Ignore

/-- Strings, modelled as lists of characters. -/
abbrev Str := List Char

/-- Convert a Lean string literal to the `Str` model. -/
def str (s : String) : Str := s.data

/-- Newline character used by the generator. -/
def nl : Char := '\n'

/-- Rust `str::starts_with` on our string model. -/
def startsWith (pat s : Str) : Bool :=
  pat.isPrefixOf s

/-- Rust `str::ends_with` on our string model. -/
def endsWith (pat s : Str) : Bool :=
  pat.reverse.isPrefixOf s.reverse

/-- Rust `str::contains(&str)`: substring test (`"".contains("") = true`). -/
def substrOf (pat s : Str) : Bool :=
  match s with
  | [] => pat.isEmpty
  | _ :: rest => pat.isPrefixOf s || substrOf pat rest

/-- ASCII whitespace predicate backing the `str::trim` model. -/
def isWs (c : Char) : Bool :=
  c = ' ' || c = '\t' || c = '\n' || c = '\r'

/-- Rust `str::trim`: drop leading and trailing whitespace. -/
def trim (s : Str) : Str :=
  ((s.dropWhile isWs).reverse.dropWhile isWs).reverse

/-- Split a string at newline characters (keeping empty segments). -/
def splitNl : Str → List Str
  | [] => [[]]
  | c :: rest =>
    let tail := splitNl rest
    if c = nl then [] :: tail
    else
      match tail with
      | [] => [[c]]
      | t :: ts => (c :: t) :: ts

/-- Strip one trailing carriage return, as Rust `str::lines` does per line. -/
def stripCr (s : Str) : Str :=
  match s.reverse with
  | '\r' :: r => r.reverse
  | _ => s

/-- Rust `str::lines`: split at `\n`, strip a trailing `\r` per line, and
drop the final empty segment produced by a trailing newline (so `""` has no
lines and `"a\n"` has exactly the line `"a"`). -/
def linesOf (s : Str) : List Str :=
  match s with
  | [] => []
  | _ =>
    let parts := splitNl s
    let parts :=
      match parts.getLast? with
      | some [] => parts.dropLast
      | _ => parts
    parts.map stripCr

/-- The `GITIGNORE_ENTRY_REGEX` of `app.rs` (`[\*/!]`): does the string
contain at least one of the glyphs `*`, `/`, `!`. -/
def hasGlyph (s : Str) : Bool :=
  s.any (fun c => c = '*' || c = '/' || c = '!')

/-- Strict byte-lexicographic order on strings (Rust `Ord for String`,
restricted to ASCII content), via character code points. -/
def strLt : Str → Str → Bool
  | [], [] => false
  | [], _ :: _ => true
  | _ :: _, [] => false
  | a :: as_, b :: bs =>
    if a.toNat < b.toNat then true
    else if b.toNat < a.toNat then false
    else strLt as_ bs

/-- Non-strict companion of `strLt`, used to model ascending `Vec::sort`. -/
def strLe (a b : Str) : Bool := !(strLt b a)

/-- Insert a string into an already sorted list, keeping ascending order
(the insertion step of a stable ascending sort). -/
def insertSorted (x : Str) : List Str → List Str
  | [] => [x]
  | y :: t => if strLe x y then x :: y :: t else y :: insertSorted x t

/-- `Vec::sort` on a vector of strings: ascending byte-lexicographic
insertion sort. -/
def sortStrs : List Str → List Str
  | [] => []
  | x :: t => insertSorted x (sortStrs t)

/-- `Vec::dedup`: remove consecutive duplicate elements. -/
def dedupAdj : List Str → List Str
  | [] => []
  | [a] => [a]
  | a :: b :: t => if a = b then dedupAdj (b :: t) else a :: dedupAdj (b :: t)

/-! ### Template consolidation (`app.rs`) -/

/-- `FILE_CONTENT_DELIMITER` of `app.rs`. -/
def FILE_CONTENT_DELIMITER : Str := str "# ----"

/-- `TEMPLATE_SUPPLEMENT_DELIMITER` of `app.rs`. -/
def TEMPLATE_SUPPLEMENT_DELIMITER : Str := str "# ****"

/-- The supplementary-section header pushed by `dedup_templates` when the
first valid line is found: `"# {template} supplementary content\n# ****\n"`. -/
def suppHeaderOf (template : Str) : Str :=
  str "# " ++ template ++ str " supplementary content" ++ [nl] ++
    TEMPLATE_SUPPLEMENT_DELIMITER ++ [nl]

/-- One iteration of the inner line loop of `dedup_templates`: trim the
line; skip it unless it matches the glyph regex and occurs as a substring
of neither the primary content nor the accumulated `insert_string`;
otherwise append it (seeding `insert_string` with the primary content and
the supplementary header on first use). -/
def dedupLineStep (primary template ins line : Str) : Str :=
  if !hasGlyph (trim line) || substrOf (trim line) primary || substrOf (trim line) ins then ins
  else
    (if ins.isEmpty then primary ++ [nl] ++ suppHeaderOf template else ins) ++ trim line ++ [nl]

/-- `dedup_templates` of `app.rs`.  `template_vec[0]` is the primary
content; every line of every later element is fed through
`dedupLineStep`; if nothing was appended the primary content is returned
verbatim, otherwise the accumulated string closed by the supplement
delimiter.  (Callers only invoke it with at least two elements; the empty
case is vacuous.) -/
def dedup_templates (template : Str) (template_vec : List Str) : Str :=
  match template_vec with
  | [] => []
  | primary :: rest =>
    let ins := rest.foldl
      (fun ins body => (linesOf body).foldl (dedupLineStep primary template) ins) []
    if ins.isEmpty then primary
    else ins ++ TEMPLATE_SUPPLEMENT_DELIMITER ++ [nl]

/-- The per-line validity test of `dedup_templates`, phrased positively:
the trimmed candidate `t` is appended iff it matches the glyph regex and
is a substring of neither the primary content nor the accumulated
insert buffer `ins`. -/
def validLine (primary ins t : Str) : Bool :=
  hasGlyph t && !substrOf t primary && !substrOf t ins

/-- Reassemble the `insert_string` buffer of `dedup_templates` from the
list of lines appended so far: empty while nothing was appended, else the
primary content, the supplementary header, and the appended lines one per
line. -/
def insOfSel (primary template : Str) (sel : List Str) : Str :=
  if sel.isEmpty then []
  else primary ++ [nl] ++ suppHeaderOf template ++ (sel.map (fun t => t ++ [nl])).flatten

/-- The line loop of `dedup_templates`, re-expressed as a fold over the
list of appended (selected) lines instead of the raw string buffer. -/
def selLineStep (primary template : Str) (sel : List Str) (line : Str) : List Str :=
  if validLine primary (insOfSel primary template sel) (trim line) then sel ++ [trim line]
  else sel

/-- All lines `dedup_templates` appends for the given secondary bodies. -/
def selAll (primary template : Str) (bodies : List Str) : List Str :=
  bodies.foldl (fun sel body => (linesOf body).foldl (selLineStep primary template) sel) []

/-- The per-template body of the loop of `concatenate_templates`
(lines 183–198 of `app.rs`), applied to the successfully read file
bodies: sort, remove exact duplicates, and either use the single
remaining body verbatim or merge via `dedup_templates`; `none` when no
body was read (the loop `continue`s and no block is emitted). -/
def consolidateBodies (template : Str) (bodies : List Str) : Option Str :=
  match dedupAdj (sortStrs bodies) with
  | [] => none
  | [b] => some b
  | v => some (dedup_templates template v)

/-- A file path, as its components from the walk root. -/
abbrev Path := List Str

/-- The `TemplatePaths` alias of `app.rs` (`BTreeMap<String, Vec<String>>`),
as an association list in ascending key order. -/
abbrev TemplatePaths := List (Str × List Path)

/-- `BTreeMap::get`. -/
def lookupTP : TemplatePaths → Str → Option (List Path)
  | [], _ => none
  | (k, v) :: rest, key => if key = k then some v else lookupTP rest key

/-- The keys of a `TemplatePaths`, in iteration order. -/
def keysTP (m : TemplatePaths) : List Str := m.map Prod.fst

/-- `template_paths.entry(k).or_default().push(p)` of
`update_template_paths`: append `p` to the bucket of `k`, creating the
entry (at its ordered position) if absent. -/
def entryPush (m : TemplatePaths) (k : Str) (p : Path) : TemplatePaths :=
  match m with
  | [] => [(k, [p])]
  | (k', ps) :: rest =>
    if strLt k k' then (k, [p]) :: (k', ps) :: rest
    else if k = k' then (k', ps ++ [p]) :: rest
    else (k', ps) :: entryPush rest k p

/-- `*available_templates.entry(t).or_default() = t_paths.to_vec()` of
`parse_templates`: bind `k` to `v`, replacing any previous binding. -/
def insertReplace (m : TemplatePaths) (k : Str) (v : List Path) : TemplatePaths :=
  match m with
  | [] => [(k, v)]
  | (k', v') :: rest =>
    if strLt k k' then (k, v) :: (k', v') :: rest
    else if k = k' then (k, v) :: rest
    else (k', v') :: insertReplace rest k v

/-! ### Template index builder (`update_template_paths`, `app.rs`) -/

/-- A repository tree entry as seen by `fs::read_dir`: a file with a body,
or a directory with its entries in traversal order. -/
inductive FsEntry where
  | file (name : Str) (content : Str)
  | dir (name : Str) (entries : List FsEntry)
deriving Repr

/-- `is_hidden` of `app.rs`: the name starts with `.`. -/
def is_hidden (name : Str) : Bool :=
  startsWith (str ".") name

/-- `ignore_file` of `app.rs`: the name ends with `md`, or starts with
`LICENSE`, or is hidden. -/
def ignore_file (name : Str) : Bool :=
  (endsWith (str "md") name || startsWith (str "LICENSE") name) || is_hidden name

/-- Everything after dropping the final dot and the segment that follows
it (meaningful only when the name contains a dot). -/
def takeBeforeLastDot (n : Str) : Str :=
  ((n.reverse.dropWhile (fun c => !(c = '.'))).drop 1).reverse

/-- `remove_filetype` of `app.rs`, i.e. Rust `Path::file_stem` applied to
the entry's base name: the whole name when it contains no dot, or when its
only dot is the leading one; otherwise the portion before the final dot. -/
def remove_filetype (n : Str) : Str :=
  match n with
  | [] => []
  | c :: rest =>
    if c = '.' then
      (if rest.contains '.' then takeBeforeLastDot (c :: rest) else c :: rest)
    else
      (if (c :: rest).contains '.' then takeBeforeLastDot (c :: rest) else c :: rest)

mutual
/-- One `read_dir` entry of `update_template_paths`: skip it when
`ignore_file` matches, recurse into directories, and push the file path
under its `remove_filetype` template name otherwise. -/
def walkEntry (pre : Path) (e : FsEntry) (acc : TemplatePaths) : TemplatePaths :=
  match e with
  | .file n _ => if ignore_file n then acc else entryPush acc (remove_filetype n) (pre ++ [n])
  | .dir n es => if ignore_file n then acc else update_template_paths (pre ++ [n]) es acc

/-- `update_template_paths` of `app.rs`, over the entry list of one
directory whose path is `pre`. -/
def update_template_paths (pre : Path) (es : List FsEntry) (acc : TemplatePaths) : TemplatePaths :=
  match es with
  | [] => acc
  | e :: rest => update_template_paths pre rest (walkEntry pre e acc)
end

/-- Build the template index of one repository tree, from an empty
accumulator at the tree root (the root directory itself is not filtered,
matching `generate_template_paths`). -/
def build_template_paths (es : List FsEntry) : TemplatePaths :=
  update_template_paths [] es []

mutual
/-- Does the relative path `p` denote a file of entry `e` that the walk
visits, i.e. every component on the way (directory names and the base
name) passes the `ignore_file` filter? -/
def reachesEntry : FsEntry → Path → Bool
  | .file n _, rel => decide (rel = [n]) && !ignore_file n
  | .dir n es, rel =>
    match rel with
    | [] => false
    | m :: rest => decide (m = n) && !ignore_file n && reachesList es rest

/-- `reachesEntry` over a directory's entry list. -/
def reachesList : List FsEntry → Path → Bool
  | [], _ => false
  | e :: rest, p => reachesEntry e p || reachesList rest p
end

/-! ### Template selector and output assembler (`app.rs`) -/

/-- `parse_templates` of `app.rs`: keep exactly the requested names that
are present in the full index, binding each to its path list. -/
def parse_templates (requested : List Str) (tp : TemplatePaths) : TemplatePaths :=
  requested.foldl
    (fun acc t =>
      match lookupTP tp t with
      | some ps => insertReplace acc t ps
      | none => acc)
    []

/-- One emitted template block:
`"\n# {template}\n# ----\n" ++ content ++ "# ----\n"`. -/
def blockOf (template content : Str) : Str :=
  [nl] ++ str "# " ++ template ++ [nl] ++ FILE_CONTENT_DELIMITER ++ [nl] ++
    content ++ FILE_CONTENT_DELIMITER ++ [nl]

/-- `concatenate_templates` of `app.rs`.  `fs` models `File::open` plus
`read_to_string`: `none` is a file that fails to open (logged and
skipped).  The error payload is the requested-template list named by the
accompanying `warn!` log. -/
def concatenate_templates (requested : List Str) (available : TemplatePaths)
    (fs : Path → Option Str) : Except (List Str) Str :=
  if available.isEmpty then .error requested
  else
    let res := available.foldl
      (fun (acc : Str × Str) (entry : Str × List Path) =>
        match consolidateBodies entry.1 (entry.2.filterMap fs) with
        | none => acc
        | some content =>
          (acc.1 ++ blockOf entry.1 content, acc.2 ++ [' '] ++ entry.1))
      ([], [])
    if res.2.isEmpty then .error requested
    else .ok (str "#\n# .gitignore\n#\n\n" ++ str "# Templates used:" ++ res.2 ++ [nl] ++ res.1)

/-- The document-generation pipeline of `generate_gitignore`: select the
requested templates from the index, then concatenate them. -/
def generate_gitignore (requested : List Str) (tp : TemplatePaths)
    (fs : Path → Option Str) : Except (List Str) Str :=
  concatenate_templates requested (parse_templates requested tp) fs

/-! ### Cache refresh policy (`src/config/state.rs`) -/

/-- `SECONDS_IN_DAY` of `state.rs`. -/
def SECONDS_IN_DAY : Nat := 60 * 60 * 24

/-- `REPO_UPDATE_LIMIT` of `state.rs`: seven days, in seconds. -/
def REPO_UPDATE_LIMIT : Nat := SECONDS_IN_DAY * 7

/-- The persisted `State` of `state.rs`, reduced to the modelled field:
`last_update`, a timestamp in seconds. -/
structure State where
  last_update : Nat
deriving DecidableEq, Repr

/-- `State::check_staleness` of `state.rs`.

`now.duration_since(self.last_update)?` fails exactly when `last_update`
is strictly later than `now`; otherwise the result is stale iff the
elapsed duration strictly exceeds `REPO_UPDATE_LIMIT` or `now` equals
`last_update`. -/
def check_staleness (s : State) (now : Nat) : Except Unit Bool :=
  if now < s.last_update then .error ()
  else
    .ok (decide (now - s.last_update > REPO_UPDATE_LIMIT) || decide (now = s.last_update))

/-- The operations of `config/runtime.rs`. -/
inductive Operation where
  | listAvailableTemplates
  | updateRepositories
  | generateGitignore
  | generateCompletions
  | els
deriving DecidableEq, Repr

/-! ### Repository refresh loop (`update_gitignore_repos`, `app.rs`) -/

/-- The result of `repo.head()`: whether `HEAD` is a branch, and
`head.name()`. -/
structure HeadInfo where
  is_branch : Bool
  branch : Option Str
deriving Repr

/-- The outcome of every libgit2 call `update_gitignore_repos` can make on
one repository: `discover` is whether `Repository::discover` succeeds,
`findFetchHead` whether `find_reference("FETCH_HEAD")` succeeds, and the
remaining fields the fallible calls reached from those. -/
structure RepoWorld where
  discover : Bool
  headInfo : Except Unit HeadInfo
  findRemote : Except Unit Unit
  fetch : Except Unit Unit
  findFetchHead : Bool
  peel : Except Unit Unit
  reset : Except Unit Unit
  cloneRepo : Except Unit Unit
deriving Repr

/-- The repository descriptor of `configs.rs` (`RepoConfig`). -/
structure RepoConfig where
  auto_update : Bool
  skip : Bool
  path : Str
  url : Str
deriving Repr

/-- The per-repository body of `update_gitignore_repos`'s loop.  Every
`?` propagates the error; a failing `find_reference("FETCH_HEAD")` instead
`continue`s (`.ok false`); `head.is_branch() = false` only logs; branchless
`head.name()` skips the fetch.  `.ok true` means the closing
`info!("Updated gitignore repo")` is reached. -/
def processRepo (w : RepoWorld) : Except Unit Bool :=
  if w.discover then
    match w.headInfo with
    | .error e => .error e
    | .ok h =>
      match
        ((match h.branch with
          | some _ =>
            (match w.findRemote with
             | .error e => .error e
             | .ok _ => w.fetch)
          | none => .ok ()) : Except Unit Unit)
      with
      | .error e => .error e
      | .ok _ =>
        if w.findFetchHead then
          match w.peel with
          | .error e => .error e
          | .ok _ =>
            match w.reset with
            | .error e => .error e
            | .ok _ => .ok true
        else .ok false
  else
    match w.cloneRepo with
    | .error e => .error e
    | .ok _ => .ok true

/-- The `update_cond` filter of `update_gitignore_repos`: non-empty URL
and (auto-update enabled or the user forced an update). -/
def eligible (op : Operation) (c : RepoConfig) : Bool :=
  !c.url.isEmpty && (c.auto_update || decide (op = Operation.updateRepositories))

/-- The loop of `update_gitignore_repos` over the configured
repositories, returning the paths of the repositories whose update
completed (reached the closing log). -/
def updateLoop (op : Operation) : List (RepoConfig × RepoWorld) → Except Unit (List Str)
  | [] => .ok []
  | (c, w) :: rest =>
    if eligible op c then
      match processRepo w with
      | .error e => .error e
      | .ok true => (updateLoop op rest).map (fun l => c.path :: l)
      | .ok false => updateLoop op rest
    else updateLoop op rest

/-- `update_gitignore_repos` of `app.rs`: run the loop, and only if it
returns (no `?` fired) set `last_update` to now. -/
def update_gitignore_repos (op : Operation) (repos : List (RepoConfig × RepoWorld))
    (st : State) (now : Nat) : Except Unit (State × List Str) :=
  match updateLoop op repos with
  | .error e => .error e
  | .ok processed => .ok ({ st with last_update := now }, processed)

/-- `app::run` of `app.rs`, abstracted over the repository-update step
(`updateFn`, standing for `update_gitignore_repos`, which may fail and
which mutates the state) and the dispatched operation's outcome
(`opAct`, standing for `generate_gitignore` / `list_templates` /
`generate_completions`, none of which touch the state).

The returned pair is `run`'s result together with the list of states
written to the state file by `state.save_to_file()`, in write order; an
early `?` return performs no write. -/
def run (st : State) (now : Nat) (op : Operation)
    (updateFn : State → Except Unit State) (opAct : Except Unit Unit) :
    Except Unit Unit × List State :=
  match check_staleness st now with
  | .error e => (.error e, [])
  | .ok stale =>
    match (if stale then updateFn st else .ok st) with
    | .error e => (.error e, [])
    | .ok st1 =>
      if stale ∧ op = Operation.updateRepositories then (.ok (), [st1])
      else
        match
          (match op with
           | Operation.updateRepositories => updateFn st1
           | Operation.generateGitignore => opAct.map (fun _ => st1)
           | Operation.listAvailableTemplates => opAct.map (fun _ => st1)
           | Operation.generateCompletions => opAct.map (fun _ => st1)
           | Operation.els => .ok st1)
        with
        | .error e => (.error e, [])
        | .ok st2 => (.ok (), [st2])

/-! ### Derived observations used by the theorems -/

/-- Does path `p` occur in the bucket of key `k` of the index? -/
def pathMem (m : TemplatePaths) (k : Str) (p : Path) : Bool :=
  match lookupTP m k with
  | some ps => decide (p ∈ ps)
  | none => false

/-- Keys of the association list are in strictly ascending order (the
`BTreeMap` representation invariant). -/
def keysSorted (m : TemplatePaths) : Prop :=
  (keysTP m).Pairwise (fun a b => strLt a b = true)

/-- The (template name, emitted block) pairs `concatenate_templates`
produces for an index, in iteration order: entries whose files all failed
to read are dropped, every other entry yields one block. -/
def blocksOf (fs : Path → Option Str) (m : TemplatePaths) : List (Str × Str) :=
  m.filterMap
    (fun e => (consolidateBodies e.1 (e.2.filterMap fs)).map (fun c => (e.1, blockOf e.1 c)))

/-- The full document assembled from a block list: fixed header, the
`Templates used` summary naming each block's template in block order, and
the blocks in order. -/
def docOf (blocks : List (Str × Str)) : Str :=
  str "#\n# .gitignore\n#\n\n" ++ str "# Templates used:" ++
    (blocks.map (fun e => ' ' :: e.1)).flatten ++ [nl] ++ (blocks.map Prod.snd).flatten

/-- The template name of the spec's words (§4.1): the base name with the
final dot-delimited extension segment removed, the full name when there is
no extension.  Stated from the spec for comparison against
`remove_filetype`. -/
def stemPerSpec (n : Str) : Str :=
  if n.contains '.' then takeBeforeLastDot n else n

/-! ### Concrete fixtures for witnesses and counterexamples -/

/-- A repository descriptor with auto-update enabled, cache path `a`. -/
def cfgA : RepoConfig := ⟨true, false, str "a", str "u1"⟩

/-- A repository descriptor with auto-update enabled, cache path `b`. -/
def cfgB : RepoConfig := ⟨true, false, str "b", str "u2"⟩

/-- A repository world where `remote.fetch` fails and everything else
succeeds. -/
def worldFetchFail : RepoWorld :=
  ⟨true, .ok ⟨true, some (str "refs/heads/main")⟩, .ok (), .error (), true, .ok (), .ok (), .ok ()⟩

/-- A repository world where every git operation succeeds. -/
def worldAllOk : RepoWorld :=
  ⟨true, .ok ⟨true, some (str "refs/heads/main")⟩, .ok (), .ok (), true, .ok (), .ok (), .ok ()⟩

/-- A repository world where everything succeeds except that no
`FETCH_HEAD` reference exists after the fetch. -/
def worldNoFetchHead : RepoWorld :=
  ⟨true, .ok ⟨true, some (str "refs/heads/main")⟩, .ok (), .ok (), false, .ok (), .ok (), .ok ()⟩

/-- A one-template index: `Python ↦ [Python.gitignore]`. -/
def pyTP : TemplatePaths := [(str "Python", [[str "Python.gitignore"]])]

/-- A filesystem with exactly the file `Python.gitignore`. -/
def pyFs : Path → Option Str :=
  fun p => if p = [str "Python.gitignore"] then some (str "*.pyc\n") else none

/-- A two-template index: `A ↦ [A.gitignore]`, `B ↦ [B.gitignore]`. -/
def tpAB : TemplatePaths :=
  [(str "A", [[str "A.gitignore"]]), (str "B", [[str "B.gitignore"]])]

/-- A filesystem with the files `A.gitignore` and `B.gitignore`. -/
def fsAB : Path → Option Str :=
  fun p =>
    if p = [str "A.gitignore"] then some (str "a/\n")
    else if p = [str "B.gitignore"] then some (str "b/\n")
    else none

/-! ## Order lemmas for `strLt` -/

theorem strLt_irrefl (s : Str) : strLt s s = false := by
  induction s with
  | nil => rfl
  | cons a t ih => simp [strLt, ih]

theorem strLt_asymm : ∀ {a b : Str}, strLt a b = true → strLt b a = false
  | [], [], h => by simp [strLt] at h
  | [], _ :: _, _ => rfl
  | _ :: _, [], h => by simp [strLt] at h
  | a :: as_, b :: bs, h => by
    by_cases hab : a.toNat < b.toNat
    · have hba : ¬ b.toNat < a.toNat := Nat.lt_asymm hab
      simp [strLt, hab, hba]
    · by_cases hba : b.toNat < a.toNat
      · simp [strLt, hab, hba] at h
      · have := strLt_asymm (a := as_) (b := bs)
        simp [strLt, hab, hba] at h ⊢
        exact this h

theorem char_toNat_inj {a b : Char} (h : a.toNat = b.toNat) : a = b := by
  have hv : a.val = b.val := by
    have hn : a.val.toNat = b.val.toNat := h
    exact UInt32.ext (by exact_mod_cast hn)
  exact Char.ext hv

theorem strLt_trichotomy : ∀ (a b : Str),
    strLt a b = true ∨ a = b ∨ strLt b a = true
  | [], [] => Or.inr (Or.inl rfl)
  | [], _ :: _ => Or.inl rfl
  | _ :: _, [] => Or.inr (Or.inr rfl)
  | a :: as_, b :: bs => by
    rcases Nat.lt_trichotomy a.toNat b.toNat with hab | hab | hab
    · exact Or.inl (by simp [strLt, hab])
    · have hae : a = b := char_toNat_inj hab
      subst hae
      rcases strLt_trichotomy as_ bs with h | h | h
      · exact Or.inl (by simp [strLt, h])
      · exact Or.inr (Or.inl (by rw [h]))
      · exact Or.inr (Or.inr (by simp [strLt, h]))
    · exact Or.inr (Or.inr (by simp [strLt, hab, Nat.lt_asymm hab]))

theorem strLt_trans : ∀ {a b c : Str},
    strLt a b = true → strLt b c = true → strLt a c = true
  | [], [], _, h, _ => by simp [strLt] at h
  | [], _ :: _, [], _, h => by simp [strLt] at h
  | [], _ :: _, _ :: _, _, _ => rfl
  | _ :: _, [], _, h, _ => by simp [strLt] at h
  | _ :: _, _ :: _, [], _, h => by simp [strLt] at h
  | a :: as_, b :: bs, c :: cs, h1, h2 => by
    simp only [strLt] at h1 h2 ⊢
    by_cases hab : a.toNat < b.toNat
    · by_cases hbc : b.toNat < c.toNat
      · rw [if_pos (Nat.lt_trans hab hbc)]
      · by_cases hcb : c.toNat < b.toNat
        · rw [if_neg hbc, if_pos hcb] at h2
          exact absurd h2 (by simp)
        · have hbec : b = c :=
            char_toNat_inj (Nat.le_antisymm (Nat.le_of_not_lt hcb) (Nat.le_of_not_lt hbc))
          subst hbec
          rw [if_pos hab]
    · by_cases hba : b.toNat < a.toNat
      · rw [if_neg hab, if_pos hba] at h1
        exact absurd h1 (by simp)
      · have haeb : a = b :=
          char_toNat_inj (Nat.le_antisymm (Nat.le_of_not_lt hba) (Nat.le_of_not_lt hab))
        subst haeb
        rw [if_neg (Nat.lt_irrefl _), if_neg (Nat.lt_irrefl _)] at h1
        by_cases hac : a.toNat < c.toNat
        · rw [if_pos hac]
        · by_cases hca : c.toNat < a.toNat
          · rw [if_neg hac, if_pos hca] at h2
            exact absurd h2 (by simp)
          · rw [if_neg hac, if_neg hca] at h2 ⊢
            exact strLt_trans h1 h2

theorem strLe_total (a b : Str) : strLe a b = true ∨ strLe b a = true := by
  unfold strLe
  by_cases h : strLt b a = true
  · right
    simp [strLt_asymm h]
  · left
    simp [Bool.eq_false_iff.mpr h]

theorem strLe_trans {a b c : Str} (hab : strLe a b = true) (hbc : strLe b c = true) :
    strLe a c = true := by
  unfold strLe at *
  by_cases h : strLt c a = true
  · exfalso
    rcases strLt_trichotomy a b with h1 | h1 | h1
    · have hcb : strLt c b = true := strLt_trans h h1
      simp [hcb] at hbc
    · subst h1
      simp [h] at hbc
    · simp [h1] at hab
  · simp [Bool.eq_false_iff.mpr h]

theorem strLe_refl (a : Str) : strLe a a = true := by
  unfold strLe
  simp [strLt_irrefl]

/-! ## Staleness (claims C5 and C10) -/

/-- C5: for `last_update ≤ now` the staleness check reports `Stale`
exactly when `now - last_update` exceeds the fixed 7-day update interval
or `now` equals `last_update`; in particular for `last_update = now - 8
days` it reports `Stale` and for `last_update = now - 1 day` it reports
`Fresh`. -/
theorem C5_check_staleness (last now : Nat) (h : last ≤ now) :
    (check_staleness ⟨last⟩ now = .ok true ↔
      (REPO_UPDATE_LIMIT < now - last ∨ now = last)) ∧
    (check_staleness ⟨last⟩ now = .ok false ↔
      ¬(REPO_UPDATE_LIMIT < now - last ∨ now = last)) ∧
    check_staleness ⟨1000000000 - 8 * SECONDS_IN_DAY⟩ 1000000000 = .ok true ∧
    check_staleness ⟨1000000000 - SECONDS_IN_DAY⟩ 1000000000 = .ok false := by
  have hnot : ¬ now < (⟨last⟩ : State).last_update := Nat.not_lt.mpr h
  refine ⟨?_, ?_, by decide, by decide⟩
  · unfold check_staleness
    rw [if_neg hnot]
    simp
  · unfold check_staleness
    rw [if_neg hnot]
    simp [not_or]

/-- Witness for C5 at `last = 5`, `now = 10`: one day's gap reports
`Fresh`. -/
theorem C5_check_staleness_witness : check_staleness ⟨5⟩ 10 = .ok false :=
  ((C5_check_staleness 5 10 (by decide)).2.1).mpr (by decide)

/-- C10: when `last_update` lies strictly in the future of `now`, the
staleness check returns an error rather than `Fresh` or `Stale`, and
`run` propagates the error before writing any state to the state file
(the persisted state is unchanged). -/
theorem C10_future_timestamp (st : State) (now : Nat) (op : Operation)
    (updateFn : State → Except Unit State) (opAct : Except Unit Unit)
    (h : now < st.last_update) :
    check_staleness st now = .error () ∧
    run st now op updateFn opAct = (.error (), []) := by
  have hc : check_staleness st now = .error () := by
    unfold check_staleness
    rw [if_pos h]
  refine ⟨hc, ?_⟩
  unfold run
  rw [hc]

/-- Witness for C10 at `last_update = 10`, `now = 5`. -/
theorem C10_future_timestamp_witness :
    check_staleness ⟨10⟩ 5 = .error () ∧
    run ⟨10⟩ 5 Operation.generateGitignore (fun s => .ok s) (.ok ()) = (.error (), []) :=
  C10_future_timestamp ⟨10⟩ 5 Operation.generateGitignore (fun s => .ok s) (.ok ())
    (by decide)

/-! ## Repository refresh loop (claim C2) -/

theorem updateLoop_ne_error_iff (op : Operation) :
    ∀ repos : List (RepoConfig × RepoWorld),
      updateLoop op repos ≠ .error () ↔
        ∀ cw ∈ repos, eligible op cw.1 = true → processRepo cw.2 ≠ .error () := by
  intro repos
  induction repos with
  | nil => simp [updateLoop]
  | cons cw rest ih =>
    obtain ⟨c, w⟩ := cw
    by_cases he : eligible op c = true
    · cases hp : processRepo w with
      | error e =>
        cases e
        have hl : updateLoop op ((c, w) :: rest) = .error () := by
          conv_lhs => rw [updateLoop]
          rw [if_pos he, hp]
        rw [hl]
        constructor
        · intro hcontra
          exact absurd rfl hcontra
        · intro hall
          exact absurd hp (hall (c, w) (List.mem_cons_self _ _) he)
      | ok b =>
        cases b with
        | false =>
          have hl : updateLoop op ((c, w) :: rest) = updateLoop op rest := by
            conv_lhs => rw [updateLoop]
            rw [if_pos he, hp]
          rw [hl, ih, List.forall_mem_cons]
          simp [hp]
        | true =>
          have hl : updateLoop op ((c, w) :: rest) =
              (updateLoop op rest).map (fun l => c.path :: l) := by
            conv_lhs => rw [updateLoop]
            rw [if_pos he, hp]
          have hmap : (updateLoop op rest).map (fun l => c.path :: l) ≠ .error () ↔
              updateLoop op rest ≠ .error () := by
            cases hrl : updateLoop op rest with
            | error e => cases e; simp [Except.map]
            | ok l => simp [Except.map]
          rw [hl, hmap, ih, List.forall_mem_cons]
          simp [hp]
    · have hl : updateLoop op ((c, w) :: rest) = updateLoop op rest := by
        conv_lhs => rw [updateLoop]
        rw [if_neg he]
      rw [hl, ih, List.forall_mem_cons]
      simp [he]

theorem update_repos_ok_iff (op : Operation) (repos : List (RepoConfig × RepoWorld))
    (st : State) (now : Nat) :
    (∃ procs, update_gitignore_repos op repos st now =
        .ok ({ st with last_update := now }, procs)) ↔
      ∀ cw ∈ repos, eligible op cw.1 = true → processRepo cw.2 ≠ .error () := by
  rw [← updateLoop_ne_error_iff]
  cases h : updateLoop op repos with
  | error e =>
    cases e
    simp [update_gitignore_repos, h]
  | ok l =>
    simp [update_gitignore_repos, h]

/-- C2 counterexample: with two eligible repositories where the first
one's `remote.fetch` fails, `update_gitignore_repos` propagates the error
via `?`: the second repository — eligible and updatable on its own, as
the third conjunct shows — is never processed, and `last_update` is not
set (the call returns no state at all), contradicting the claim that a
fetch failure does not abort the loop and that `last_update` is set
regardless of individual failures. -/
theorem C2_update_abort_counterexample :
    update_gitignore_repos Operation.updateRepositories
        [(cfgA, worldFetchFail), (cfgB, worldAllOk)] ⟨0⟩ 100 = .error () ∧
    eligible Operation.updateRepositories cfgB = true ∧
    update_gitignore_repos Operation.updateRepositories [(cfgB, worldAllOk)] ⟨0⟩ 100 =
      .ok (⟨100⟩, [str "b"]) := by decide

/-- C2 (amended): a missing `FETCH_HEAD` reference after the fetch is the
only tolerated per-repository failure — that repository is skipped and
the loop continues as if it were absent; any `head`/`fetch`/`peel`/
`reset`/`clone` failure on an eligible repository aborts the loop at once
(`.error`), and `last_update` is set to `now` exactly when every eligible
repository's attempt returns without such an error. -/
theorem C2_update_loop (op : Operation) (repos : List (RepoConfig × RepoWorld))
    (st : State) (now : Nat) (c : RepoConfig) (w : RepoWorld)
    (helig : eligible op c = true) :
    ((∃ procs, update_gitignore_repos op repos st now =
        .ok ({ st with last_update := now }, procs)) ↔
      ∀ cw ∈ repos, eligible op cw.1 = true → processRepo cw.2 ≠ .error ()) ∧
    (processRepo w = .ok false →
      update_gitignore_repos op ((c, w) :: repos) st now =
        update_gitignore_repos op repos st now) ∧
    (processRepo w = .error () →
      update_gitignore_repos op ((c, w) :: repos) st now = .error ()) := by
  refine ⟨update_repos_ok_iff op repos st now, ?_, ?_⟩
  · intro hp
    have hl : updateLoop op ((c, w) :: repos) = updateLoop op repos := by
      conv_lhs => rw [updateLoop]
      rw [if_pos helig, hp]
    unfold update_gitignore_repos
    rw [hl]
  · intro hp
    have hl : updateLoop op ((c, w) :: repos) = .error () := by
      conv_lhs => rw [updateLoop]
      rw [if_pos helig, hp]
    unfold update_gitignore_repos
    rw [hl]

/-- Witness for C2 (amended): a repository with everything succeeding is
processed and `last_update` is set; a repository whose `FETCH_HEAD` is
missing is skipped without affecting the rest of the loop. -/
theorem C2_update_loop_witness :
    (∃ procs, update_gitignore_repos Operation.updateRepositories
        [(cfgB, worldAllOk)] ⟨0⟩ 100 = .ok (⟨100⟩, procs)) ∧
    update_gitignore_repos Operation.updateRepositories
        [(cfgA, worldNoFetchHead), (cfgB, worldAllOk)] ⟨0⟩ 100 =
      update_gitignore_repos Operation.updateRepositories [(cfgB, worldAllOk)] ⟨0⟩ 100 := by
  refine ⟨?_, ?_⟩
  · exact (C2_update_loop Operation.updateRepositories [(cfgB, worldAllOk)] ⟨0⟩ 100
      cfgA worldNoFetchHead (by decide)).1.mpr (by decide)
  · exact (C2_update_loop Operation.updateRepositories [(cfgB, worldAllOk)] ⟨0⟩ 100
      cfgA worldNoFetchHead (by decide)).2.1 (by decide)

/-! ## Deduplication machinery (claims C3, C6, C7) -/

theorem insOfSel_isEmpty (p tpl : Str) (sel : List Str) :
    (insOfSel p tpl sel).isEmpty = sel.isEmpty := by
  cases sel with
  | nil => rfl
  | cons a t =>
    cases p with
    | nil => rfl
    | cons c cs => rfl

theorem dedupLineStep_insOfSel (p tpl : Str) (sel : List Str) (line : Str) :
    dedupLineStep p tpl (insOfSel p tpl sel) line =
      insOfSel p tpl (selLineStep p tpl sel line) := by
  unfold dedupLineStep selLineStep validLine
  cases hg : hasGlyph (trim line) <;>
    cases hsp : substrOf (trim line) p <;>
    cases hsi : substrOf (trim line) (insOfSel p tpl sel) <;>
      simp only [hg, hsp, hsi, Bool.not_true, Bool.not_false, Bool.false_or, Bool.true_or,
        Bool.or_true, Bool.or_false, Bool.true_and, Bool.false_and, Bool.and_true,
        Bool.and_false, if_true, if_false, ite_true, ite_false] <;>
      try rfl
  rw [insOfSel_isEmpty]
  cases sel with
  | nil => simp [insOfSel, List.append_assoc]
  | cons a t =>
    simp [insOfSel, List.map_append, List.flatten_append, List.append_assoc]

theorem foldl_dedupLineStep (p tpl : Str) :
    ∀ (lines : List Str) (sel : List Str),
      lines.foldl (dedupLineStep p tpl) (insOfSel p tpl sel) =
        insOfSel p tpl (lines.foldl (selLineStep p tpl) sel) := by
  intro lines
  induction lines with
  | nil => intro sel; rfl
  | cons l rest ih =>
    intro sel
    simp only [List.foldl_cons]
    rw [dedupLineStep_insOfSel]
    exact ih _

theorem foldl_bodies_dedup (p tpl : Str) :
    ∀ (bodies : List Str) (sel : List Str),
      bodies.foldl (fun ins body => (linesOf body).foldl (dedupLineStep p tpl) ins)
          (insOfSel p tpl sel) =
        insOfSel p tpl
          (bodies.foldl (fun s body => (linesOf body).foldl (selLineStep p tpl) s) sel) := by
  intro bodies
  induction bodies with
  | nil => intro sel; rfl
  | cons b rest ih =>
    intro sel
    simp only [List.foldl_cons]
    rw [foldl_dedupLineStep]
    exact ih _

theorem dedup_templates_eq (tpl p : Str) (rest : List Str) :
    dedup_templates tpl (p :: rest) =
      (if (selAll p tpl rest).isEmpty then p
       else insOfSel p tpl (selAll p tpl rest) ++ TEMPLATE_SUPPLEMENT_DELIMITER ++ [nl]) := by
  have h := foldl_bodies_dedup p tpl rest []
  simp only [show insOfSel p tpl [] = [] from rfl] at h
  simp only [dedup_templates, selAll]
  rw [h, insOfSel_isEmpty]

theorem mem_foldl_selLineStep (p tpl : Str) :
    ∀ (lines sel : List Str) (l : Str),
      l ∈ lines.foldl (selLineStep p tpl) sel → l ∈ sel ∨ ∃ ln ∈ lines, l = trim ln := by
  intro lines
  induction lines with
  | nil =>
    intro sel l h
    exact Or.inl h
  | cons x rest ih =>
    intro sel l h
    rcases ih _ l h with hin | ⟨ln, hln, hl⟩
    · unfold selLineStep at hin
      by_cases hv : validLine p (insOfSel p tpl sel) (trim x) = true
      · rw [if_pos hv] at hin
        rcases List.mem_append.mp hin with h1 | h2
        · exact Or.inl h1
        · exact Or.inr ⟨x, List.mem_cons_self _ _, List.mem_singleton.mp h2⟩
      · rw [if_neg hv] at hin
        exact Or.inl hin
    · exact Or.inr ⟨ln, List.mem_cons_of_mem _ hln, hl⟩

theorem mem_selAll (p tpl : Str) :
    ∀ (bodies : List Str) (sel : List Str) (l : Str),
      l ∈ bodies.foldl (fun s body => (linesOf body).foldl (selLineStep p tpl) s) sel →
        l ∈ sel ∨ ∃ b ∈ bodies, ∃ ln ∈ linesOf b, l = trim ln := by
  intro bodies
  induction bodies with
  | nil =>
    intro sel l h
    exact Or.inl h
  | cons b rest ih =>
    intro sel l h
    rcases ih _ l h with hin | ⟨b', hb', ln, hln, hl⟩
    · rcases mem_foldl_selLineStep p tpl (linesOf b) sel l hin with h1 | ⟨ln, hln, hl⟩
      · exact Or.inl h1
      · exact Or.inr ⟨b, List.mem_cons_self _ _, ln, hln, hl⟩
    · exact Or.inr ⟨b', List.mem_cons_of_mem _ hb', ln, hln, hl⟩

/-! ## Sorting machinery -/

theorem mem_insertSorted (x : Str) :
    ∀ (l : List Str) (y : Str), y ∈ insertSorted x l ↔ y = x ∨ y ∈ l := by
  intro l
  induction l with
  | nil => intro y; simp [insertSorted]
  | cons a t ih =>
    intro y
    unfold insertSorted
    by_cases h : strLe x a = true
    · rw [if_pos h]
      simp [List.mem_cons]
    · rw [if_neg h]
      simp [List.mem_cons, ih]
      tauto

theorem mem_sortStrs : ∀ (l : List Str) (y : Str), y ∈ sortStrs l ↔ y ∈ l := by
  intro l
  induction l with
  | nil => intro y; simp [sortStrs]
  | cons a t ih =>
    intro y
    simp only [sortStrs, mem_insertSorted, ih, List.mem_cons]

theorem insertSorted_ne_nil (x : Str) : ∀ (l : List Str), insertSorted x l ≠ [] := by
  intro l
  cases l with
  | nil => simp [insertSorted]
  | cons a t =>
    unfold insertSorted
    by_cases h : strLe x a = true
    · rw [if_pos h]
      simp
    · rw [if_neg h]
      simp

theorem sortStrs_ne_nil : ∀ (l : List Str), l ≠ [] → sortStrs l ≠ [] := by
  intro l h
  cases l with
  | nil => exact absurd rfl h
  | cons a t => exact insertSorted_ne_nil a (sortStrs t)

theorem pairwise_insertSorted (x : Str) :
    ∀ (l : List Str), l.Pairwise (fun a b => strLe a b = true) →
      (insertSorted x l).Pairwise (fun a b => strLe a b = true) := by
  intro l
  induction l with
  | nil =>
    intro _
    simp [insertSorted]
  | cons a t ih =>
    intro hp
    rcases List.pairwise_cons.mp hp with ⟨ha, ht⟩
    unfold insertSorted
    by_cases h : strLe x a = true
    · rw [if_pos h]
      refine List.pairwise_cons.mpr ⟨?_, hp⟩
      intro y hy
      rcases List.mem_cons.mp hy with rfl | hy'
      · exact h
      · exact strLe_trans h (ha y hy')
    · rw [if_neg h]
      refine List.pairwise_cons.mpr ⟨?_, ih ht⟩
      intro y hy
      rcases (mem_insertSorted x t y).mp hy with rfl | hy'
      · rcases strLe_total y a with h1 | h1
        · exact absurd h1 h
        · exact h1
      · exact ha y hy'

theorem pairwise_sortStrs (l : List Str) :
    (sortStrs l).Pairwise (fun a b => strLe a b = true) := by
  induction l with
  | nil => simp [sortStrs]
  | cons a t ih => exact pairwise_insertSorted a (sortStrs t) ih

theorem dedupAdj_head : ∀ (l : List Str), (dedupAdj l).head? = l.head?
  | [] => rfl
  | [_] => rfl
  | a :: b :: t => by
    unfold dedupAdj
    by_cases h : a = b
    · rw [if_pos h, dedupAdj_head (b :: t)]
      simp [h]
    · rw [if_neg h]
      rfl

theorem dedupAdj_subset : ∀ (l : List Str) (x : Str), x ∈ dedupAdj l → x ∈ l
  | [], x, h => absurd h (List.not_mem_nil x)
  | [_], _, h => h
  | a :: b :: t, x, h => by
    unfold dedupAdj at h
    by_cases hab : a = b
    · rw [if_pos hab] at h
      exact List.mem_cons_of_mem _ (dedupAdj_subset (b :: t) x h)
    · rw [if_neg hab] at h
      rcases List.mem_cons.mp h with rfl | h'
      · exact List.mem_cons_self _ _
      · exact List.mem_cons_of_mem _ (dedupAdj_subset (b :: t) x h')

theorem dedupAdj_const : ∀ (l : List Str) (c : Str), l ≠ [] → (∀ x ∈ l, x = c) →
    dedupAdj l = [c]
  | [], _, h, _ => absurd rfl h
  | [a], c, _, hall => by
    simp [dedupAdj, hall a (by simp)]
  | a :: b :: t, c, _, hall => by
    have hab : a = b := by
      rw [hall a (by simp), hall b (by simp)]
    unfold dedupAdj
    rw [if_pos hab]
    exact dedupAdj_const (b :: t) c (by simp) (fun x hx => hall x (List.mem_cons_of_mem _ hx))

/-! ## Claims C7, C6, C3 -/

/-- C7: when every contributing file of a template has byte-identical
content, the consolidated block's content is that content exactly once —
the sorted body list deduplicates to a single element, so
`dedup_templates` is never invoked and no supplementary section is
emitted. -/
theorem C7_identical_bodies (tpl : Str) (bodies : List Str) (c : Str)
    (hne : bodies ≠ []) (hall : ∀ b ∈ bodies, b = c) :
    consolidateBodies tpl bodies = some c := by
  have hs : ∀ x ∈ sortStrs bodies, x = c := fun x hx => hall x ((mem_sortStrs bodies x).mp hx)
  have hd : dedupAdj (sortStrs bodies) = [c] :=
    dedupAdj_const _ c (sortStrs_ne_nil bodies hne) hs
  unfold consolidateBodies
  rw [hd]

/-- Witness for C7: two identical bodies yield that body once. -/
theorem C7_identical_bodies_witness :
    consolidateBodies (str "C") [str "*.o\n", str "*.o\n"] = some (str "*.o\n") :=
  C7_identical_bodies (str "C") [str "*.o\n", str "*.o\n"] (str "*.o\n")
    (by decide) (by decide)

/-- C6 counterexample: the claim's three conditions (glyph, not a
substring of the primary content, not present in previously appended
supplementary content) all hold for the line `****` of the secondary
body, yet it is not appended: the code tests the candidate against the
whole accumulated `insert_string`, whose supplementary marker `# ****`
contains `****`. -/
theorem C6_marker_substring_counterexample :
    dedup_templates (str "C") [str "x/\n", str "b/\n****\n"] =
      str "x/\n\n# C supplementary content\n# ****\nb/\n# ****\n" ∧
    selAll (str "x/\n") (str "C") [str "b/\n****\n"] = [str "b/"] ∧
    hasGlyph (trim (str "****")) = true ∧
    substrOf (trim (str "****")) (str "x/\n") = false ∧
    substrOf (trim (str "****")) (str "b/\n") = false := by decide

/-- C6 (amended): a line is appended iff its trimmed form matches the
glyph filter (`*`, `/`, `!`) and is a substring of neither the primary
content nor the accumulated supplement buffer — which, once non-empty,
begins with a copy of the primary content and the supplementary
header/marker lines, so glyph lines occurring in that text (such as runs
of asterisks) are also excluded.  Appended lines are trimmed, one per
line, and the marker is emitted only when at least one line was appended
(the `selAll`/`insOfSel` characterization below).  The `*.log` / `tmp/` /
`# comment` example behaves as the spec states. -/
theorem C6_line_filter :
    (∀ (tpl p : Str) (rest : List Str),
      dedup_templates tpl (p :: rest) =
        (if (selAll p tpl rest).isEmpty then p
         else insOfSel p tpl (selAll p tpl rest) ++ TEMPLATE_SUPPLEMENT_DELIMITER ++ [nl])) ∧
    selAll (str "*.log\n") (str "C") [str "*.log\ntmp/\n# comment\n"] = [str "tmp/"] ∧
    dedup_templates (str "C") [str "*.log\n", str "*.log\ntmp/\n# comment\n"] =
      str "*.log\n\n# C supplementary content\n# ****\ntmp/\n# ****\n" :=
  ⟨fun tpl p rest => dedup_templates_eq tpl p rest, by decide, by decide⟩

/-- C3 counterexample: the bodies arrive in file-path order
`["b/\n", "a!\n"]`, so the claim demands primary content `b/\n`; but the
code sorts the bodies before deduplication, so the emitted block content
begins with `a!\n` and not with `b/\n`. -/
theorem C3_sorted_primary_counterexample :
    consolidateBodies (str "T") [str "b/\n", str "a!\n"] =
      some (str "a!\n\n# T supplementary content\n# ****\nb/\n# ****\n") ∧
    startsWith (str "b/\n")
      (str "a!\n\n# T supplementary content\n# ****\nb/\n# ****\n") = false ∧
    startsWith (str "a!\n")
      (str "a!\n\n# T supplementary content\n# ****\nb/\n# ****\n") = true := by decide

/-- C3 (amended): when more than one distinct body remains after exact
deduplication, the primary content is the byte-lexicographically least
contributing body (the bodies are sorted before deduplication), it is one
of the contributing bodies, the block is produced by `dedup_templates` on
the deduplicated sorted list, and every supplementary line is the trimmed
form of a line of one of the other distinct bodies. -/
theorem C3_primary_is_min (tpl : Str) (bodies : List Str) (p : Str) (rest : List Str)
    (h : dedupAdj (sortStrs bodies) = p :: rest) (hrest : rest ≠ []) :
    p ∈ bodies ∧
    (∀ b ∈ bodies, strLe p b = true) ∧
    consolidateBodies tpl bodies = some (dedup_templates tpl (p :: rest)) ∧
    (∀ b ∈ rest, b ∈ bodies) ∧
    (∀ l ∈ selAll p tpl rest, ∃ b ∈ rest, ∃ ln ∈ linesOf b, l = trim ln) := by
  have hsubset : ∀ x ∈ p :: rest, x ∈ bodies := by
    intro x hx
    exact (mem_sortStrs bodies x).mp (dedupAdj_subset _ x (h ▸ hx))
  have hsorted : ∃ t, sortStrs bodies = p :: t := by
    have hh : (sortStrs bodies).head? = some p := by
      rw [← dedupAdj_head, h]
      rfl
    cases hs : sortStrs bodies with
    | nil => rw [hs] at hh; cases hh
    | cons q t =>
      rw [hs] at hh
      exact ⟨t, by rw [List.head?_cons] at hh; rw [Option.some.injEq] at hh; rw [hh]⟩
  refine ⟨hsubset p (List.mem_cons_self _ _), ?_, ?_, ?_, ?_⟩
  · intro b hb
    obtain ⟨t, ht⟩ := hsorted
    have hbs : b ∈ sortStrs bodies := (mem_sortStrs bodies b).mpr hb
    rw [ht] at hbs
    rcases List.mem_cons.mp hbs with rfl | hbt
    · exact strLe_refl b
    · have hpw := pairwise_sortStrs bodies
      rw [ht] at hpw
      exact (List.pairwise_cons.mp hpw).1 b hbt
  · unfold consolidateBodies
    rw [h]
    cases rest with
    | nil => exact absurd rfl hrest
    | cons r rs => rfl
  · intro b hb
    exact hsubset b (List.mem_cons_of_mem _ hb)
  · intro l hl
    rcases mem_selAll p tpl rest [] l hl with hfalse | hgood
    · exact absurd hfalse (List.not_mem_nil l)
    · exact hgood

/-- Witness for C3 (amended): with bodies in path order
`["b/\n", "a!\n"]`, the primary is `a!\n`, a member of the bodies and
lexicographically least. -/
theorem C3_primary_is_min_witness :
    (str "a!\n") ∈ [str "b/\n", str "a!\n"] ∧
    consolidateBodies (str "T") [str "b/\n", str "a!\n"] =
      some (dedup_templates (str "T") [str "a!\n", str "b/\n"]) := by
  have h := C3_primary_is_min (str "T") [str "b/\n", str "a!\n"] (str "a!\n") [str "b/\n"]
    (by decide) (by decide)
  exact ⟨h.1, h.2.2.1⟩

/-! ## Sorted-map lemmas for `TemplatePaths` -/

theorem keysTP_cons (k : Str) (v : List Path) (rest : TemplatePaths) :
    keysTP ((k, v) :: rest) = k :: keysTP rest := rfl

theorem lookupTP_none_of_lt (k : Str) :
    ∀ (m : TemplatePaths), (∀ e ∈ m, strLt k e.1 = true) → lookupTP m k = none := by
  intro m
  induction m with
  | nil => intro _; rfl
  | cons e rest ih =>
    intro hall
    obtain ⟨k0, v0⟩ := e
    have hlt : strLt k k0 = true := hall (k0, v0) (List.mem_cons_self _ _)
    have hne : ¬ k = k0 := by
      intro heq
      subst heq
      rw [strLt_irrefl] at hlt
      cases hlt
    unfold lookupTP
    rw [if_neg hne]
    exact ih (fun e he => hall e (List.mem_cons_of_mem _ he))

theorem keysTP_entryPush_subset (k : Str) (p : Path) :
    ∀ (m : TemplatePaths) (k' : Str), k' ∈ keysTP (entryPush m k p) → k' = k ∨ k' ∈ keysTP m := by
  intro m
  induction m with
  | nil =>
    intro k' h
    simp [entryPush, keysTP] at h
    exact Or.inl h
  | cons e rest ih =>
    intro k' h
    obtain ⟨k0, ps⟩ := e
    unfold entryPush at h
    by_cases h1 : strLt k k0 = true
    · rw [if_pos h1] at h
      rcases List.mem_cons.mp h with rfl | h'
      · exact Or.inl rfl
      · exact Or.inr h'
    · rw [if_neg h1] at h
      by_cases h2 : k = k0
      · rw [if_pos h2] at h
        rw [keysTP_cons] at h ⊢
        exact Or.inr h
      · rw [if_neg h2] at h
        rw [keysTP_cons] at h
        rcases List.mem_cons.mp h with rfl | h'
        · exact Or.inr (List.mem_cons_self _ _)
        · rcases ih k' h' with hk | hk
          · exact Or.inl hk
          · exact Or.inr (List.mem_cons_of_mem _ hk)

theorem keysSorted_entryPush (k : Str) (p : Path) :
    ∀ (m : TemplatePaths), keysSorted m → keysSorted (entryPush m k p) := by
  intro m
  induction m with
  | nil =>
    intro _
    simp [entryPush, keysSorted, keysTP]
  | cons e rest ih =>
    intro hm
    obtain ⟨k0, ps⟩ := e
    have hm' : (k0 :: keysTP rest).Pairwise (fun a b => strLt a b = true) := hm
    rcases List.pairwise_cons.mp hm' with ⟨hk0, hrest⟩
    unfold entryPush
    by_cases h1 : strLt k k0 = true
    · rw [if_pos h1]
      refine List.pairwise_cons.mpr ⟨?_, hm'⟩
      intro y hy
      rcases List.mem_cons.mp hy with rfl | hy'
      · exact h1
      · exact strLt_trans h1 (hk0 y hy')
    · rw [if_neg h1]
      by_cases h2 : k = k0
      · rw [if_pos h2]
        exact hm
      · rw [if_neg h2]
        refine List.pairwise_cons.mpr ⟨?_, ih hrest⟩
        intro y hy
        rcases keysTP_entryPush_subset k p rest y hy with rfl | hy'
        · rcases strLt_trichotomy y k0 with h3 | h3 | h3
          · exact absurd h3 h1
          · exact absurd h3 h2
          · exact h3
        · exact hk0 y hy'

theorem lookupTP_cons (k0 : Str) (v0 : List Path) (rest : TemplatePaths) (key : Str) :
    lookupTP ((k0, v0) :: rest) key = if key = k0 then some v0 else lookupTP rest key := rfl

theorem lookupTP_entryPush (k : Str) (p : Path) :
    ∀ (m : TemplatePaths) (k' : Str), keysSorted m →
      lookupTP (entryPush m k p) k' =
        (if k' = k then some (((lookupTP m k).getD []) ++ [p]) else lookupTP m k') := by
  intro m
  induction m with
  | nil =>
    intro k' _
    by_cases hk : k' = k
    · simp [entryPush, lookupTP, hk]
    · simp [entryPush, lookupTP, hk]
  | cons e rest ih =>
    intro k' hm
    obtain ⟨k0, ps⟩ := e
    have hm' : (k0 :: keysTP rest).Pairwise (fun a b => strLt a b = true) := hm
    rcases List.pairwise_cons.mp hm' with ⟨hk0, hrest⟩
    by_cases h1 : strLt k k0 = true
    · have hE : entryPush ((k0, ps) :: rest) k p = (k, [p]) :: (k0, ps) :: rest := by
        unfold entryPush
        rw [if_pos h1]
      have hnone : lookupTP ((k0, ps) :: rest) k = none := by
        apply lookupTP_none_of_lt
        intro e he
        rcases List.mem_cons.mp he with rfl | he'
        · exact h1
        · exact strLt_trans h1 (hk0 e.1 (List.mem_map_of_mem Prod.fst he'))
      rw [hE, lookupTP_cons k [p] ((k0, ps) :: rest) k', hnone]
      by_cases hk : k' = k
      · rw [if_pos hk, if_pos hk]
        rfl
      · rw [if_neg hk, if_neg hk]
    · by_cases h2 : k = k0
      · subst h2
        have hE : entryPush ((k, ps) :: rest) k p = (k, ps ++ [p]) :: rest := by
          unfold entryPush
          rw [if_neg h1, if_pos rfl]
        have hx : lookupTP ((k, ps) :: rest) k = some ps := by
          rw [lookupTP_cons k ps rest k, if_pos rfl]
        rw [hE, lookupTP_cons k (ps ++ [p]) rest k', hx]
        by_cases hk : k' = k
        · rw [if_pos hk, if_pos hk]
          rfl
        · rw [if_neg hk, if_neg hk, lookupTP_cons k ps rest k', if_neg hk]
      · have hE : entryPush ((k0, ps) :: rest) k p = (k0, ps) :: entryPush rest k p := by
          simp only [entryPush]
          rw [if_neg h1, if_neg h2]
        have hx : lookupTP ((k0, ps) :: rest) k = lookupTP rest k := by
          rw [lookupTP_cons k0 ps rest k, if_neg h2]
        rw [hE, lookupTP_cons k0 ps (entryPush rest k p) k', hx]
        by_cases hk : k' = k0
        · subst hk
          have hkne : ¬ k' = k := fun h => h2 h.symm
          rw [if_pos rfl, if_neg hkne, lookupTP_cons k' ps rest k', if_pos rfl]
        · rw [if_neg hk, ih k' hrest]
          by_cases hkk : k' = k
          · rw [if_pos hkk, if_pos hkk]
          · rw [if_neg hkk, if_neg hkk, lookupTP_cons k0 ps rest k', if_neg hk]

theorem pathMem_entryPush (k0 : Str) (p0 : Path) (m : TemplatePaths) (k : Str) (q : Path)
    (hm : keysSorted m) :
    pathMem (entryPush m k0 p0) k q = true ↔
      (pathMem m k q = true ∨ (k = k0 ∧ q = p0)) := by
  unfold pathMem
  rw [lookupTP_entryPush k0 p0 m k hm]
  by_cases hk : k = k0
  · rw [if_pos hk]
    cases hl : lookupTP m k0 with
    | none =>
      subst hk
      rw [hl]
      simp
    | some ps =>
      subst hk
      rw [hl]
      simp [List.mem_append]
  · rw [if_neg hk]
    cases hl : lookupTP m k with
    | none => simp [hk]
    | some ps => simp [hk]

/-! ## Walk characterization (claims C1 and C8) -/

theorem reachesList_nil : ∀ (es : List FsEntry), reachesList es [] = false := by
  intro es
  induction es with
  | nil => simp [reachesList]
  | cons e rest ih =>
    simp only [reachesList]
    rw [ih]
    cases e with
    | file n c => simp [reachesEntry]
    | dir n es => simp [reachesEntry]

mutual
theorem reachesEntry_last : ∀ (e : FsEntry) (rel : Path), reachesEntry e rel = true →
    ∃ n, rel.getLast? = some n ∧ ignore_file n = false
  | FsEntry.file n c, rel, h => by
    simp only [reachesEntry, Bool.and_eq_true, decide_eq_true_eq] at h
    obtain ⟨hrel, hig⟩ := h
    subst hrel
    refine ⟨n, List.getLast?_singleton n, ?_⟩
    rwa [Bool.not_eq_true'] at hig
  | FsEntry.dir n es, rel, h => by
    simp only [reachesEntry] at h
    cases rel with
    | nil => simp at h
    | cons m rest =>
      simp only [Bool.and_eq_true, decide_eq_true_eq] at h
      obtain ⟨⟨hmn, hig⟩, hrest⟩ := h
      obtain ⟨n', hlast, hig'⟩ := reachesList_last es rest hrest
      cases rest with
      | nil =>
        rw [show (([] : Path)).getLast? = none from rfl] at hlast
        exact absurd hlast (by simp)
      | cons r rs =>
        exact ⟨n', by rw [List.getLast?_cons_cons]; exact hlast, hig'⟩

theorem reachesList_last : ∀ (es : List FsEntry) (rel : Path), reachesList es rel = true →
    ∃ n, rel.getLast? = some n ∧ ignore_file n = false
  | [], rel, h => by simp [reachesList] at h
  | e :: rest, rel, h => by
    simp only [reachesList, Bool.or_eq_true] at h
    rcases h with h1 | h2
    · exact reachesEntry_last e rel h1
    · exact reachesList_last rest rel h2
end

mutual
theorem keysSorted_walkEntry : ∀ (pre : Path) (e : FsEntry) (acc : TemplatePaths),
    keysSorted acc → keysSorted (walkEntry pre e acc)
  | pre, FsEntry.file n c, acc, h => by
    simp only [walkEntry]
    by_cases hig : ignore_file n = true
    · rw [if_pos hig]
      exact h
    · rw [if_neg hig]
      exact keysSorted_entryPush _ _ acc h
  | pre, FsEntry.dir n es, acc, h => by
    simp only [walkEntry]
    by_cases hig : ignore_file n = true
    · rw [if_pos hig]
      exact h
    · rw [if_neg hig]
      exact keysSorted_update (pre ++ [n]) es acc h

theorem keysSorted_update : ∀ (pre : Path) (es : List FsEntry) (acc : TemplatePaths),
    keysSorted acc → keysSorted (update_template_paths pre es acc)
  | _, [], acc, h => by
    simp only [update_template_paths]
    exact h
  | pre, e :: rest, acc, h => by
    simp only [update_template_paths]
    exact keysSorted_update pre rest _ (keysSorted_walkEntry pre e acc h)
end

mutual
theorem pathMem_walkEntry : ∀ (pre : Path) (e : FsEntry) (acc : TemplatePaths) (k : Str)
    (q : Path), keysSorted acc →
    (pathMem (walkEntry pre e acc) k q = true ↔
      (pathMem acc k q = true ∨
        ∃ rel, q = pre ++ rel ∧ reachesEntry e rel = true ∧
          ∃ n, rel.getLast? = some n ∧ k = remove_filetype n))
  | pre, FsEntry.file n c, acc, k, q, hacc => by
    simp only [walkEntry]
    by_cases hig : ignore_file n = true
    · rw [if_pos hig]
      constructor
      · exact fun h => Or.inl h
      · rintro (h | ⟨rel, hq, hre, hrest⟩)
        · exact h
        · exfalso
          simp only [reachesEntry, Bool.and_eq_true, decide_eq_true_eq] at hre
          obtain ⟨h1, h2⟩ := hre
          rw [hig] at h2
          simp at h2
    · rw [if_neg hig]
      have hig' : ignore_file n = false := Bool.eq_false_iff.mpr hig
      rw [pathMem_entryPush (remove_filetype n) (pre ++ [n]) acc k q hacc]
      constructor
      · rintro (h | ⟨hk, hq⟩)
        · exact Or.inl h
        · refine Or.inr ⟨[n], hq, ?_, n, List.getLast?_singleton n, hk⟩
          simp [reachesEntry, hig']
      · rintro (h | ⟨rel, hq, hre, n', hlast, hk⟩)
        · exact Or.inl h
        · simp only [reachesEntry, Bool.and_eq_true, decide_eq_true_eq] at hre
          obtain ⟨hrel, _⟩ := hre
          subst hrel
          rw [List.getLast?_singleton] at hlast
          injection hlast with hn'
          subst hn'
          exact Or.inr ⟨hk, hq⟩
  | pre, FsEntry.dir n es, acc, k, q, hacc => by
    simp only [walkEntry]
    by_cases hig : ignore_file n = true
    · rw [if_pos hig]
      constructor
      · exact fun h => Or.inl h
      · rintro (h | ⟨rel, hq, hre, hrest⟩)
        · exact h
        · exfalso
          simp only [reachesEntry] at hre
          cases rel with
          | nil => simp at hre
          | cons m rest =>
            simp only [Bool.and_eq_true, decide_eq_true_eq] at hre
            obtain ⟨⟨_, h2⟩, _⟩ := hre
            rw [hig] at h2
            simp at h2
    · rw [if_neg hig]
      have hig' : ignore_file n = false := Bool.eq_false_iff.mpr hig
      rw [pathMem_update (pre ++ [n]) es acc k q hacc]
      constructor
      · rintro (h | ⟨rel', hq, hre, n', hlast, hk⟩)
        · exact Or.inl h
        · have hrelne : rel' ≠ [] := by
            intro h0
            subst h0
            rw [reachesList_nil] at hre
            simp at hre
          refine Or.inr ⟨n :: rel', ?_, ?_, n', ?_, hk⟩
          · rw [hq, List.append_assoc]
            rfl
          · simp [reachesEntry, hig', hre]
          · cases rel' with
            | nil => exact absurd rfl hrelne
            | cons r rs =>
              rw [List.getLast?_cons_cons]
              exact hlast
      · rintro (h | ⟨rel, hq, hre, n', hlast, hk⟩)
        · exact Or.inl h
        · simp only [reachesEntry] at hre
          cases rel with
          | nil => simp at hre
          | cons m rest' =>
            simp only [Bool.and_eq_true, decide_eq_true_eq] at hre
            obtain ⟨⟨hmn, _⟩, hrl⟩ := hre
            subst hmn
            have hrestne : rest' ≠ [] := by
              intro h0
              subst h0
              rw [reachesList_nil] at hrl
              simp at hrl
            refine Or.inr ⟨rest', ?_, hrl, n', ?_, hk⟩
            · rw [hq, List.append_assoc]
              rfl
            · cases rest' with
              | nil => exact absurd rfl hrestne
              | cons r rs =>
                rw [List.getLast?_cons_cons] at hlast
                exact hlast

theorem pathMem_update : ∀ (pre : Path) (es : List FsEntry) (acc : TemplatePaths) (k : Str)
    (q : Path), keysSorted acc →
    (pathMem (update_template_paths pre es acc) k q = true ↔
      (pathMem acc k q = true ∨
        ∃ rel, q = pre ++ rel ∧ reachesList es rel = true ∧
          ∃ n, rel.getLast? = some n ∧ k = remove_filetype n))
  | pre, [], acc, k, q, hacc => by
    simp only [update_template_paths]
    constructor
    · exact fun h => Or.inl h
    · rintro (h | ⟨rel, hq, hre, hrest⟩)
      · exact h
      · simp [reachesList] at hre
  | pre, e :: rest, acc, k, q, hacc => by
    simp only [update_template_paths]
    rw [pathMem_update pre rest (walkEntry pre e acc) k q (keysSorted_walkEntry pre e acc hacc),
      pathMem_walkEntry pre e acc k q hacc]
    constructor
    · rintro ((h | ⟨rel, hq, hre, hrest⟩) | ⟨rel, hq, hre, hrest⟩)
      · exact Or.inl h
      · refine Or.inr ⟨rel, hq, ?_, hrest⟩
        simp [reachesList, hre]
      · refine Or.inr ⟨rel, hq, ?_, hrest⟩
        simp [reachesList, hre]
    · rintro (h | ⟨rel, hq, hre, hrest⟩)
      · exact Or.inl (Or.inl h)
      · simp only [reachesList, Bool.or_eq_true] at hre
        rcases hre with h1 | h2
        · exact Or.inl (Or.inr ⟨rel, hq, h1, hrest⟩)
        · exact Or.inr ⟨rel, hq, h2, hrest⟩
end

/-- C1 counterexample: the file `Systemd` matches none of the claimed
exclusion conditions (does not start with `.`, does not end with `.md`,
does not start with `LICENSE`), yet the built index is empty, because the
code's filter tests `ends_with("md")` without the dot; likewise the file
`a.txt`, whose own name matches none of the conditions, is excluded
because it sits inside the dot-directory `.github`. -/
theorem C1_exclusion_counterexample :
    build_template_paths [FsEntry.file (str "Systemd") (str "x")] = [] ∧
    startsWith (str ".") (str "Systemd") = false ∧
    endsWith (str ".md") (str "Systemd") = false ∧
    startsWith (str "LICENSE") (str "Systemd") = false ∧
    build_template_paths
      [FsEntry.dir (str ".github") [FsEntry.file (str "a.txt") (str "y")]] = [] ∧
    startsWith (str ".") (str "a.txt") = false ∧
    endsWith (str ".md") (str "a.txt") = false ∧
    startsWith (str "LICENSE") (str "a.txt") = false := by
  refine ⟨?_, by decide, by decide, by decide, ?_, by decide, by decide, by decide⟩
  · simp only [build_template_paths, update_template_paths, walkEntry]
    rw [if_pos (show ignore_file (str "Systemd") = true from by decide)]
  · simp only [build_template_paths, update_template_paths, walkEntry]
    rw [if_pos (show ignore_file (str ".github") = true from by decide)]

/-- C1 (amended): a path `q` appears in the built template index under key
`k` iff the walk reaches the file — every path component from the
repository root, directory names and the base name alike, passes the
`ignore_file` filter, i.e. neither ends with `md` (with or without a dot),
nor starts with `LICENSE`, nor starts with `.` — and `k` is the base
name's `remove_filetype` stem; in particular every non-excluded file
appears under exactly that one template name. -/
theorem C1_index_membership (es : List FsEntry) (k : Str) (q : Path) :
    pathMem (build_template_paths es) k q = true ↔
      (reachesList es q = true ∧ ∃ n, q.getLast? = some n ∧ k = remove_filetype n) := by
  rw [show build_template_paths es = update_template_paths [] es [] from rfl]
  rw [pathMem_update [] es [] k q (by simp [keysSorted, keysTP])]
  rw [show pathMem [] k q = false from rfl]
  simp only [List.nil_append]
  constructor
  · rintro (h | ⟨rel, hq, hre, hrest⟩)
    · exact absurd h (by simp)
    · subst hq
      exact ⟨hre, hrest⟩
  · rintro ⟨hre, hrest⟩
    exact Or.inr ⟨q, rfl, hre, hrest⟩

theorem remove_filetype_eq_spec (n : Str) (h : is_hidden n = false) :
    remove_filetype n = stemPerSpec n := by
  cases n with
  | nil => rfl
  | cons c rest =>
    have hc : ¬ c = '.' := by
      intro hceq
      subst hceq
      have hh : is_hidden ('.' :: rest) = true := by
        simp [is_hidden, startsWith, str, List.isPrefixOf]
      rw [hh] at h
      exact Bool.noConfusion h
    simp only [remove_filetype, stemPerSpec]
    rw [if_neg hc]

/-- C8: the template name of every indexed file equals the spec's stem —
the base name with only the final dot-delimited extension segment
removed, and the full base name when it contains no dot.  (Indexed files
are never hidden, which is what makes `Path::file_stem` agree with the
spec's description.) -/
theorem C8_template_name (es : List FsEntry) (k : Str) (q : Path) (n : Str)
    (hmem : pathMem (build_template_paths es) k q = true)
    (hlast : q.getLast? = some n) :
    k = stemPerSpec n ∧ (n.contains '.' = false → k = n) := by
  rw [show build_template_paths es = update_template_paths [] es [] from rfl] at hmem
  have hchar := (pathMem_update [] es [] k q (by simp [keysSorted, keysTP])).mp hmem
  rcases hchar with h | ⟨rel, hq, hre, n', hlast', hk⟩
  · rw [show pathMem [] k q = false from rfl] at h
    exact absurd h (by simp)
  · rw [List.nil_append] at hq
    subst hq
    rw [hlast'] at hlast
    injection hlast with hnn
    subst hnn
    obtain ⟨m, hm1, hm2⟩ := reachesList_last es q hre
    rw [hlast'] at hm1
    injection hm1 with hmn
    subst hmn
    have hhid : is_hidden n' = false := by
      unfold ignore_file at hm2
      rcases Bool.or_eq_false_iff.mp hm2 with ⟨_, h2⟩
      exact h2
    have hstem := remove_filetype_eq_spec n' hhid
    refine ⟨hk.trans hstem, ?_⟩
    intro hcont
    rw [hk, hstem]
    simp only [stemPerSpec]
    rw [hcont]
    simp

/-- Witness for C8 at a tree containing exactly `Python.gitignore`: its
index key is the stem `Python`. -/
theorem C8_template_name_witness :
    (str "Python") = stemPerSpec (str "Python.gitignore") ∧
    ((str "Python.gitignore").contains '.' = false →
      (str "Python") = str "Python.gitignore") := by
  have hb : build_template_paths [FsEntry.file (str "Python.gitignore") (str "x")] =
      [(str "Python", [[str "Python.gitignore"]])] := by
    simp only [build_template_paths, update_template_paths, walkEntry]
    rw [if_neg (show ¬ ignore_file (str "Python.gitignore") = true from by decide)]
    decide
  exact C8_template_name [FsEntry.file (str "Python.gitignore") (str "x")] (str "Python")
    [str "Python.gitignore"] (str "Python.gitignore") (by rw [hb]; decide) (by decide)

/-! ## Selector and assembler machinery (claims C4 and C9) -/

theorem keysTP_insertReplace_subset (k : Str) (v : List Path) :
    ∀ (m : TemplatePaths) (k' : Str),
      k' ∈ keysTP (insertReplace m k v) → k' = k ∨ k' ∈ keysTP m := by
  intro m
  induction m with
  | nil =>
    intro k' h
    simp [insertReplace, keysTP] at h
    exact Or.inl h
  | cons e rest ih =>
    intro k' h
    obtain ⟨k0, v0⟩ := e
    unfold insertReplace at h
    by_cases h1 : strLt k k0 = true
    · rw [if_pos h1] at h
      rcases List.mem_cons.mp h with rfl | h'
      · exact Or.inl rfl
      · exact Or.inr h'
    · rw [if_neg h1] at h
      by_cases h2 : k = k0
      · rw [if_pos h2] at h
        rcases List.mem_cons.mp h with rfl | h'
        · exact Or.inl rfl
        · rw [keysTP_cons]
          exact Or.inr (List.mem_cons_of_mem _ h')
      · rw [if_neg h2] at h
        rw [keysTP_cons] at h
        rcases List.mem_cons.mp h with rfl | h'
        · exact Or.inr (List.mem_cons_self _ _)
        · rcases ih k' h' with hk | hk
          · exact Or.inl hk
          · exact Or.inr (List.mem_cons_of_mem _ hk)

theorem keysSorted_insertReplace (k : Str) (v : List Path) :
    ∀ (m : TemplatePaths), keysSorted m → keysSorted (insertReplace m k v) := by
  intro m
  induction m with
  | nil =>
    intro _
    simp [insertReplace, keysSorted, keysTP]
  | cons e rest ih =>
    intro hm
    obtain ⟨k0, v0⟩ := e
    have hm' : (k0 :: keysTP rest).Pairwise (fun a b => strLt a b = true) := hm
    rcases List.pairwise_cons.mp hm' with ⟨hk0, hrest⟩
    unfold insertReplace
    by_cases h1 : strLt k k0 = true
    · rw [if_pos h1]
      refine List.pairwise_cons.mpr ⟨?_, hm'⟩
      intro y hy
      rcases List.mem_cons.mp hy with rfl | hy'
      · exact h1
      · exact strLt_trans h1 (hk0 y hy')
    · by_cases h2 : k = k0
      · rw [if_neg h1, if_pos h2]
        subst h2
        exact List.pairwise_cons.mpr ⟨hk0, hrest⟩
      · rw [if_neg h1, if_neg h2]
        refine List.pairwise_cons.mpr ⟨?_, ih hrest⟩
        intro y hy
        rcases keysTP_insertReplace_subset k v rest y hy with rfl | hy'
        · rcases strLt_trichotomy y k0 with h3 | h3 | h3
          · exact absurd h3 h1
          · exact absurd h3 h2
          · exact h3
        · exact hk0 y hy'

theorem lookupTP_insertReplace (k : Str) (v : List Path) :
    ∀ (m : TemplatePaths) (k' : Str), keysSorted m →
      lookupTP (insertReplace m k v) k' =
        (if k' = k then some v else lookupTP m k') := by
  intro m
  induction m with
  | nil =>
    intro k' _
    by_cases hk : k' = k
    · simp [insertReplace, lookupTP, hk]
    · simp [insertReplace, lookupTP, hk]
  | cons e rest ih =>
    intro k' hm
    obtain ⟨k0, v0⟩ := e
    have hm' : (k0 :: keysTP rest).Pairwise (fun a b => strLt a b = true) := hm
    rcases List.pairwise_cons.mp hm' with ⟨hk0, hrest⟩
    by_cases h1 : strLt k k0 = true
    · have hE : insertReplace ((k0, v0) :: rest) k v = (k, v) :: (k0, v0) :: rest := by
        simp only [insertReplace]
        rw [if_pos h1]
      rw [hE, lookupTP_cons k v ((k0, v0) :: rest) k']
    · by_cases h2 : k = k0
      · subst h2
        have hE : insertReplace ((k, v0) :: rest) k v = (k, v) :: rest := by
          simp only [insertReplace]
          rw [if_neg h1]
          simp
        rw [hE, lookupTP_cons k v rest k']
        by_cases hk : k' = k
        · rw [if_pos hk, if_pos hk]
        · rw [if_neg hk, if_neg hk, lookupTP_cons k v0 rest k', if_neg hk]
      · have hE : insertReplace ((k0, v0) :: rest) k v = (k0, v0) :: insertReplace rest k v := by
          simp only [insertReplace]
          rw [if_neg h1, if_neg h2]
        rw [hE, lookupTP_cons k0 v0 (insertReplace rest k v) k', ih k' hrest]
        by_cases hk : k' = k0
        · subst hk
          have hkne : ¬ k' = k := fun h => h2 h.symm
          rw [if_pos rfl, if_neg hkne, lookupTP_cons k' v0 rest k', if_pos rfl]
        · rw [if_neg hk, lookupTP_cons k0 v0 rest k', if_neg hk]

theorem keysSorted_parse_go (tp : TemplatePaths) :
    ∀ (requested : List Str) (acc : TemplatePaths), keysSorted acc →
      keysSorted (requested.foldl
        (fun acc t =>
          match lookupTP tp t with
          | some ps => insertReplace acc t ps
          | none => acc)
        acc) := by
  intro requested
  induction requested with
  | nil => intro acc h; exact h
  | cons t rest ih =>
    intro acc h
    simp only [List.foldl_cons]
    cases hl : lookupTP tp t with
    | none =>
      simp only [hl]
      exact ih acc h
    | some ps =>
      simp only [hl]
      exact ih _ (keysSorted_insertReplace t ps acc h)

theorem keysSorted_parse (requested : List Str) (tp : TemplatePaths) :
    keysSorted (parse_templates requested tp) :=
  keysSorted_parse_go tp requested [] (by simp [keysSorted, keysTP])

theorem lookupTP_parse_go (tp : TemplatePaths) :
    ∀ (requested : List Str) (acc : TemplatePaths) (k : Str), keysSorted acc →
      lookupTP (requested.foldl
        (fun acc t =>
          match lookupTP tp t with
          | some ps => insertReplace acc t ps
          | none => acc)
        acc) k =
      (if k ∈ requested ∧ (lookupTP tp k).isSome then lookupTP tp k else lookupTP acc k) := by
  intro requested
  induction requested with
  | nil =>
    intro acc k h
    simp
  | cons t rest ih =>
    intro acc k h
    simp only [List.foldl_cons]
    cases hl : lookupTP tp t with
    | none =>
      simp only [hl]
      rw [ih acc k h]
      by_cases hk : k = t
      · subst hk
        rw [hl]
        simp
      · by_cases hc : k ∈ rest ∧ (lookupTP tp k).isSome
        · rw [if_pos hc, if_pos ⟨List.mem_cons_of_mem _ hc.1, hc.2⟩]
        · rw [if_neg hc, if_neg ?_]
          rintro ⟨hmem, hsome⟩
          rcases List.mem_cons.mp hmem with rfl | hmem'
          · exact hk rfl
          · exact hc ⟨hmem', hsome⟩
    | some ps =>
      simp only [hl]
      rw [ih _ k (keysSorted_insertReplace t ps acc h)]
      by_cases hc : k ∈ rest ∧ (lookupTP tp k).isSome
      · rw [if_pos hc, if_pos ⟨List.mem_cons_of_mem _ hc.1, hc.2⟩]
      · rw [if_neg hc, lookupTP_insertReplace t ps acc k h]
        by_cases hk : k = t
        · subst hk
          rw [if_pos rfl, if_pos ⟨List.mem_cons_self _ _, by rw [hl]; rfl⟩, hl]
        · rw [if_neg hk, if_neg ?_]
          rintro ⟨hmem, hsome⟩
          rcases List.mem_cons.mp hmem with rfl | hmem'
          · exact hk rfl
          · exact hc ⟨hmem', hsome⟩

theorem lookupTP_parse (requested : List Str) (tp : TemplatePaths) (k : Str) :
    lookupTP (parse_templates requested tp) k =
      (if k ∈ requested ∧ (lookupTP tp k).isSome then lookupTP tp k else none) :=
  lookupTP_parse_go tp requested [] k (by simp [keysSorted, keysTP])

theorem mem_keysTP_iff : ∀ (m : TemplatePaths) (k : Str),
    k ∈ keysTP m ↔ (lookupTP m k).isSome = true := by
  intro m
  induction m with
  | nil =>
    intro k
    simp [keysTP, lookupTP]
  | cons e rest ih =>
    intro k
    obtain ⟨k0, v0⟩ := e
    rw [keysTP_cons, lookupTP_cons k0 v0 rest k]
    by_cases hk : k = k0
    · subst hk
      simp
    · rw [if_neg hk]
      simp [List.mem_cons, hk, ih]

theorem mem_entry_iff_lookup : ∀ (m : TemplatePaths), keysSorted m →
    ∀ (k : Str) (v : List Path), ((k, v) ∈ m ↔ lookupTP m k = some v) := by
  intro m
  induction m with
  | nil =>
    intro _ k v
    simp [lookupTP]
  | cons e rest ih =>
    intro hm k v
    obtain ⟨k0, v0⟩ := e
    have hm' : (k0 :: keysTP rest).Pairwise (fun a b => strLt a b = true) := hm
    rcases List.pairwise_cons.mp hm' with ⟨hk0, hrest⟩
    rw [lookupTP_cons k0 v0 rest k]
    by_cases hk : k = k0
    · subst hk
      rw [if_pos rfl]
      constructor
      · intro hmem
        rcases List.mem_cons.mp hmem with heq | hmem'
        · injection heq with e1 e2
          rw [e2]
        · exfalso
          have : k ∈ keysTP rest := List.mem_map_of_mem Prod.fst hmem'
          have := hk0 k this
          rw [strLt_irrefl] at this
          exact Bool.noConfusion this
      · intro hv
        injection hv with hv
        rw [hv]
        exact List.mem_cons_self _ _
    · rw [if_neg hk]
      constructor
      · intro hmem
        rcases List.mem_cons.mp hmem with heq | hmem'
        · injection heq with e1 e2
          exact absurd e1 hk
        · exact (ih hrest k v).mp hmem'
      · intro hv
        exact List.mem_cons_of_mem _ ((ih hrest k v).mpr hv)

theorem sorted_lookup_ext : ∀ (m1 m2 : TemplatePaths), keysSorted m1 → keysSorted m2 →
    (∀ k, lookupTP m1 k = lookupTP m2 k) → m1 = m2 := by
  intro m1
  induction m1 with
  | nil =>
    intro m2 _ h2 hl
    cases m2 with
    | nil => rfl
    | cons e rest =>
      obtain ⟨k0, v0⟩ := e
      exfalso
      have := hl k0
      rw [lookupTP_cons k0 v0 rest k0, if_pos rfl] at this
      exact Option.noConfusion this
  | cons e1 rest1 ih =>
    intro m2 h1 h2 hl
    obtain ⟨k1, v1⟩ := e1
    have h1' : (k1 :: keysTP rest1).Pairwise (fun a b => strLt a b = true) := h1
    rcases List.pairwise_cons.mp h1' with ⟨hk1, hrest1⟩
    cases m2 with
    | nil =>
      exfalso
      have := hl k1
      rw [lookupTP_cons k1 v1 rest1 k1, if_pos rfl] at this
      exact Option.noConfusion this
    | cons e2 rest2 =>
      obtain ⟨k2, v2⟩ := e2
      have h2' : (k2 :: keysTP rest2).Pairwise (fun a b => strLt a b = true) := h2
      rcases List.pairwise_cons.mp h2' with ⟨hk2, hrest2⟩
      have hkeq : k1 = k2 := by
        rcases strLt_trichotomy k1 k2 with h3 | h3 | h3
        · exfalso
          have := hl k1
          rw [lookupTP_cons k1 v1 rest1 k1, if_pos rfl,
            lookupTP_cons k2 v2 rest2 k1] at this
          have hne : ¬ k1 = k2 := by
            intro heq
            rw [heq, strLt_irrefl] at h3
            exact Bool.noConfusion h3
          rw [if_neg hne] at this
          have hnone : lookupTP rest2 k1 = none := by
            apply lookupTP_none_of_lt
            intro e he
            exact strLt_trans h3 (hk2 e.1 (List.mem_map_of_mem Prod.fst he))
          rw [hnone] at this
          exact Option.noConfusion this
        · exact h3
        · exfalso
          have := hl k2
          rw [lookupTP_cons k2 v2 rest2 k2, if_pos rfl,
            lookupTP_cons k1 v1 rest1 k2] at this
          have hne : ¬ k2 = k1 := by
            intro heq
            rw [heq, strLt_irrefl] at h3
            exact Bool.noConfusion h3
          rw [if_neg hne] at this
          have hnone : lookupTP rest1 k2 = none := by
            apply lookupTP_none_of_lt
            intro e he
            exact strLt_trans h3 (hk1 e.1 (List.mem_map_of_mem Prod.fst he))
          rw [hnone] at this
          exact Option.noConfusion this
      subst hkeq
      have hveq : v1 = v2 := by
        have := hl k1
        rw [lookupTP_cons k1 v1 rest1 k1, if_pos rfl,
          lookupTP_cons k1 v2 rest2 k1, if_pos rfl] at this
        injection this
      subst hveq
      have hresteq : rest1 = rest2 := by
        apply ih rest2 hrest1 hrest2
        intro k
        by_cases hk : k = k1
        · subst hk
          have hn1 : lookupTP rest1 k = none := by
            apply lookupTP_none_of_lt
            intro e he
            exact hk1 e.1 (List.mem_map_of_mem Prod.fst he)
          have hn2 : lookupTP rest2 k = none := by
            apply lookupTP_none_of_lt
            intro e he
            exact hk2 e.1 (List.mem_map_of_mem Prod.fst he)
          rw [hn1, hn2]
        · have := hl k
          rw [lookupTP_cons k1 v1 rest1 k, if_neg hk,
            lookupTP_cons k1 v1 rest2 k, if_neg hk] at this
          exact this
      rw [hresteq]

theorem concat_fold (fs : Path → Option Str) :
    ∀ (m : TemplatePaths) (acc1 acc2 : Str),
      m.foldl
        (fun (acc : Str × Str) (entry : Str × List Path) =>
          match consolidateBodies entry.1 (entry.2.filterMap fs) with
          | none => acc
          | some content =>
            (acc.1 ++ blockOf entry.1 content, acc.2 ++ [' '] ++ entry.1))
        (acc1, acc2) =
      (acc1 ++ ((blocksOf fs m).map Prod.snd).flatten,
        acc2 ++ ((blocksOf fs m).map (fun e => ' ' :: e.1)).flatten) := by
  intro m
  induction m with
  | nil =>
    intro acc1 acc2
    simp [blocksOf]
  | cons e rest ih =>
    intro acc1 acc2
    simp only [List.foldl_cons]
    cases hc : consolidateBodies e.1 (e.2.filterMap fs) with
    | none =>
      simp only [hc]
      rw [ih acc1 acc2]
      simp [blocksOf, List.filterMap_cons, hc]
    | some content =>
      simp only [hc]
      rw [ih (acc1 ++ blockOf e.1 content) (acc2 ++ [' '] ++ e.1)]
      simp [blocksOf, List.filterMap_cons, hc, List.append_assoc]

theorem flatten_used_isEmpty :
    ∀ (bl : List (Str × Str)),
      ((bl.map (fun e => ' ' :: e.1)).flatten).isEmpty = bl.isEmpty := by
  intro bl
  cases bl with
  | nil => rfl
  | cons e rest => rfl

theorem concatenate_spec (requested : List Str) (available : TemplatePaths)
    (fs : Path → Option Str) :
    concatenate_templates requested available fs =
      (if (blocksOf fs available).isEmpty then Except.error requested
       else Except.ok (docOf (blocksOf fs available))) := by
  unfold concatenate_templates docOf
  by_cases ha : available.isEmpty = true
  · rw [if_pos ha]
    have hav : available = [] := List.isEmpty_iff.mp ha
    subst hav
    rfl
  · rw [if_neg ha]
    rw [concat_fold fs available [] []]
    simp only [List.nil_append]
    rw [flatten_used_isEmpty]

theorem blocksOf_names_sublist (fs : Path → Option Str) :
    ∀ (m : TemplatePaths), ((blocksOf fs m).map Prod.fst).Sublist (keysTP m) := by
  intro m
  induction m with
  | nil => simp [blocksOf, keysTP]
  | cons e rest ih =>
    obtain ⟨k0, ps⟩ := e
    rw [keysTP_cons k0 ps rest]
    cases hc : consolidateBodies k0 (ps.filterMap fs) with
    | none =>
      have hb : blocksOf fs ((k0, ps) :: rest) = blocksOf fs rest := by
        simp [blocksOf, List.filterMap_cons, hc]
      rw [hb]
      exact ih.cons k0
    | some content =>
      have hb : blocksOf fs ((k0, ps) :: rest) =
          (k0, blockOf k0 content) :: blocksOf fs rest := by
        simp [blocksOf, List.filterMap_cons, hc]
      rw [hb]
      simp only [List.map_cons]
      exact ih.cons₂ k0

theorem blocksOf_names_total (fs : Path → Option Str) :
    ∀ (m : TemplatePaths),
      (∀ e ∈ m, (consolidateBodies e.1 (e.2.filterMap fs)).isSome = true) →
      (blocksOf fs m).map Prod.fst = keysTP m := by
  intro m
  induction m with
  | nil =>
    intro _
    simp [blocksOf, keysTP]
  | cons e rest ih =>
    intro hall
    obtain ⟨k0, ps⟩ := e
    have hhead := hall (k0, ps) (List.mem_cons_self _ _)
    cases hc : consolidateBodies k0 (ps.filterMap fs) with
    | none =>
      rw [hc] at hhead
      exact absurd hhead (by simp)
    | some content =>
      have hb : blocksOf fs ((k0, ps) :: rest) =
          (k0, blockOf k0 content) :: blocksOf fs rest := by
        simp [blocksOf, List.filterMap_cons, hc]
      rw [hb, keysTP_cons k0 ps rest]
      simp only [List.map_cons]
      rw [ih (fun e he => hall e (List.mem_cons_of_mem _ he))]

theorem dedupAdj_ne_nil : ∀ (l : List Str), l ≠ [] → dedupAdj l ≠ []
  | [], h, _ => absurd rfl h
  | [a], _, h => by simp [dedupAdj] at h
  | a :: b :: t, _, h => by
    unfold dedupAdj at h
    by_cases hab : a = b
    · rw [if_pos hab] at h
      exact dedupAdj_ne_nil (b :: t) (by simp) h
    · rw [if_neg hab] at h
      exact List.cons_ne_nil _ _ h

theorem consolidateBodies_isSome (t : Str) (bodies : List Str) (h : bodies ≠ []) :
    (consolidateBodies t bodies).isSome = true := by
  unfold consolidateBodies
  have h1 : dedupAdj (sortStrs bodies) ≠ [] := dedupAdj_ne_nil _ (sortStrs_ne_nil _ h)
  cases hd : dedupAdj (sortStrs bodies) with
  | nil => exact absurd hd h1
  | cons b rest =>
    cases rest with
    | nil => rfl
    | cons r rs => rfl

theorem filterMap_ne_nil_of_total (fs : Path → Option Str) (ps : List Path)
    (hne : ps ≠ []) (hall : ∀ p ∈ ps, fs p ≠ none) : ps.filterMap fs ≠ [] := by
  cases ps with
  | nil => exact absurd rfl hne
  | cons p rest =>
    cases hfp : fs p with
    | none => exact absurd hfp (hall p (List.mem_cons_self _ _))
    | some b => simp [List.filterMap_cons, hfp]

/-- C4: requested names with no case-sensitive exact match are silently
dropped from the selection (first conjunct); when no requested name
resolves, the pipeline signals `MissingTemplates` carrying the originally
requested list (second conjunct); when at least one resolves, the
pipeline succeeds and the document consists of exactly one block per
resolved name (third conjunct), provided the index is well-formed: every
entry has at least one path and every indexed path is readable. -/
theorem C4_selection (tp : TemplatePaths) (fs : Path → Option Str) (requested : List Str)
    (hs : keysSorted tp)
    (hne : ∀ e ∈ tp, e.2 ≠ [])
    (hread : ∀ e ∈ tp, ∀ p ∈ e.2, fs p ≠ none) :
    (∀ k, k ∈ keysTP (parse_templates requested tp) ↔
      (k ∈ requested ∧ (lookupTP tp k).isSome = true)) ∧
    ((∀ r ∈ requested, lookupTP tp r = none) →
      generate_gitignore requested tp fs = .error requested) ∧
    ((∃ r ∈ requested, (lookupTP tp r).isSome = true) →
      generate_gitignore requested tp fs =
        .ok (docOf (blocksOf fs (parse_templates requested tp))) ∧
      (blocksOf fs (parse_templates requested tp)).map Prod.fst =
        keysTP (parse_templates requested tp)) := by
  have hmemkeys : ∀ k, k ∈ keysTP (parse_templates requested tp) ↔
      (k ∈ requested ∧ (lookupTP tp k).isSome = true) := by
    intro k
    rw [mem_keysTP_iff, lookupTP_parse]
    by_cases hc : k ∈ requested ∧ (lookupTP tp k).isSome = true
    · rw [if_pos hc]
      simp [hc.2, hc]
    · rw [if_neg hc]
      simp [hc]
  refine ⟨hmemkeys, ?_, ?_⟩
  · intro hnone
    have hp : parse_templates requested tp = [] := by
      cases hp : parse_templates requested tp with
      | nil => rfl
      | cons e rest =>
        exfalso
        have hke : e.1 ∈ keysTP (parse_templates requested tp) := by
          rw [hp, keysTP_cons e.1 e.2 rest]
          exact List.mem_cons_self _ _
        rcases (hmemkeys e.1).mp hke with ⟨hmem, hsome⟩
        rw [hnone e.1 hmem] at hsome
        exact Bool.noConfusion hsome
    unfold generate_gitignore
    rw [hp, concatenate_spec]
    simp [blocksOf]
  · intro hex
    have htotal : ∀ e ∈ parse_templates requested tp,
        (consolidateBodies e.1 (e.2.filterMap fs)).isSome = true := by
      intro e he
      obtain ⟨k0, ps⟩ := e
      have hl : lookupTP (parse_templates requested tp) k0 = some ps :=
        (mem_entry_iff_lookup (parse_templates requested tp)
          (keysSorted_parse requested tp) k0 ps).mp he
      rw [lookupTP_parse] at hl
      by_cases hc : k0 ∈ requested ∧ (lookupTP tp k0).isSome = true
      · rw [if_pos hc] at hl
        have hintp : (k0, ps) ∈ tp := (mem_entry_iff_lookup tp hs k0 ps).mpr hl
        apply consolidateBodies_isSome
        apply filterMap_ne_nil_of_total fs ps (hne (k0, ps) hintp)
        exact hread (k0, ps) hintp
      · rw [if_neg hc] at hl
        exact Option.noConfusion hl
    have hnames : (blocksOf fs (parse_templates requested tp)).map Prod.fst =
        keysTP (parse_templates requested tp) :=
      blocksOf_names_total fs (parse_templates requested tp) htotal
    have hbne : (blocksOf fs (parse_templates requested tp)).isEmpty = false := by
      obtain ⟨r, hr, hrs⟩ := hex
      have hkr : r ∈ keysTP (parse_templates requested tp) := (hmemkeys r).mpr ⟨hr, hrs⟩
      cases hb : blocksOf fs (parse_templates requested tp) with
      | nil =>
        exfalso
        rw [hb] at hnames
        rw [← hnames] at hkr
        exact absurd hkr (List.not_mem_nil r)
      | cons b rest => rfl
    refine ⟨?_, hnames⟩
    unfold generate_gitignore
    rw [concatenate_spec, hbne]
    simp

/-- Witness for C4: requesting `["Python", "DoesNotExist"]` against an
index containing only `Python` yields a document and no error. -/
theorem C4_selection_witness :
    generate_gitignore [str "Python", str "DoesNotExist"] pyTP pyFs =
      .ok (docOf (blocksOf pyFs
        (parse_templates [str "Python", str "DoesNotExist"] pyTP))) := by
  have h := (C4_selection pyTP pyFs [str "Python", str "DoesNotExist"]
    (by simp [keysSorted, keysTP, pyTP]) (by decide) (by decide)).2.2 (by decide)
  exact h.1

/-- C9: the ok-document of a successful generation run is fully
determined by the set of resolved names — any permutation of the request
list yields the same document — the per-template blocks appear in
strictly ascending byte-lexicographic (case-sensitive) order of template
name, and the document is the header followed by a `Templates used`
summary naming exactly the block-producing templates in that same order,
followed by the blocks in that order (`docOf`). -/
theorem C9_block_order (tp : TemplatePaths) (fs : Path → Option Str)
    (r1 r2 : List Str) (hperm : r1.Perm r2) (d : Str)
    (h1 : generate_gitignore r1 tp fs = .ok d) :
    generate_gitignore r2 tp fs = .ok d ∧
    ((blocksOf fs (parse_templates r1 tp)).map Prod.fst).Pairwise
      (fun a b => strLt a b = true) ∧
    d = docOf (blocksOf fs (parse_templates r1 tp)) := by
  have hpp : parse_templates r1 tp = parse_templates r2 tp := by
    apply sorted_lookup_ext _ _ (keysSorted_parse r1 tp) (keysSorted_parse r2 tp)
    intro k
    rw [lookupTP_parse, lookupTP_parse]
    by_cases hc : k ∈ r1 ∧ (lookupTP tp k).isSome = true
    · rw [if_pos hc, if_pos ⟨hperm.mem_iff.mp hc.1, hc.2⟩]
    · rw [if_neg hc, if_neg ?_]
      rintro ⟨hmem, hsome⟩
      exact hc ⟨hperm.mem_iff.mpr hmem, hsome⟩
  unfold generate_gitignore at h1 ⊢
  rw [concatenate_spec] at h1
  by_cases hb : (blocksOf fs (parse_templates r1 tp)).isEmpty = true
  · rw [if_pos hb] at h1
    exact absurd h1 (by simp)
  · rw [if_neg hb] at h1
    injection h1 with hd
    refine ⟨?_, ?_, hd.symm⟩
    · rw [concatenate_spec, ← hpp, if_neg hb, hd]
    · exact List.Pairwise.sublist (blocksOf_names_sublist fs (parse_templates r1 tp))
        (keysSorted_parse r1 tp)

/-- Witness for C9: requesting `["B", "A"]` and `["A", "B"]` against a
two-template index yields the same document. -/
theorem C9_block_order_witness :
    generate_gitignore [str "A", str "B"] tpAB fsAB =
      .ok (docOf (blocksOf fsAB (parse_templates [str "B", str "A"] tpAB))) := by
  have h := C9_block_order tpAB fsAB
    [str "B", str "A"] [str "A", str "B"] (by decide)
    (docOf (blocksOf fsAB (parse_templates [str "B", str "A"] tpAB)))
    (by decide)
  exact h.1

end Ignore
